import Mathlib

/-! icleaner: retention selection over grouped docker images.

A shallow embedding of `icleaner.go`: the ordering rule `dockerImages.Less`,
the grouping loop of `groupImages`, the selection loop of `filterImages`, the
cleaning loop of `cleanImages` and the mode decision of `trimImages`.

Conventions of the embedding.

* A Go `string` is a Lean `String`; `a < b` is `strLt a b`, the lexicographic
  comparison of the character codes, which on valid UTF-8 text is Go's byte-wise
  comparison, and `a > b` is `strLt b a`.
* A Go `map[string]dockerImages` is a list of `(key, group)` pairs with distinct
  keys.  `for _, v := range images` visits the pairs in the order of the list, so
  a statement quantified over all lists covers every visiting order.
* An index out of range (a Go run-time panic) is the result `none`.
* `int64` values are integers; the one subtraction of the source (`tNum-1`) wraps
  around through `wrapInt64`.
* The docker daemon is a record of answers (`Daemon`), and a run of `trimImages`
  is the list of what it does in order (`Event`).
-/

namespace Icleaner

/-! ## Data model -/

/-- The source's `dockerImage` struct. -/
structure dockerImage where
  ID : String
  Tag : String
deriving DecidableEq, Repr

/-- The source's `dockerImages` slice type. -/
abbrev dockerImages := List dockerImage

/-- The fields of the docker client's image record that `groupImages` reads. -/
structure ImageSummary where
  ID : String
  RepoTags : List String
deriving DecidableEq, Repr

/-- A Go map from repository name to group, in visiting order. -/
abbrev ImageMap := List (String × dockerImages)

def defaultNum : Int := 0
def defaultTime : String := "cyvan"
def defaultName : String := "cyvan"

/-- The separator `tagSplit := ":"` of `groupImages`. -/
def tagSplit : Char := ':'

/-- The separator `idSplit := ":"` of `filterImages`. -/
def idSplit : Char := ':'

/-! ## Library functions used by the source -/

/-- Splitting a character sequence at every occurrence of `sep`; the pieces are
the maximal runs between separators, so `n` separators give `n + 1` pieces. -/
def splitChars (sep : Char) : List Char → List (List Char)
  | [] => [[]]
  | c :: cs =>
    if c = sep then [] :: splitChars sep cs
    else
      match splitChars sep cs with
      | [] => [[c]]
      | w :: ws => (c :: w) :: ws

/-- Go's `strings.Split(s, sep)` for a one-character separator. -/
def stringsSplit (s : String) (sep : Char) : List String :=
  (splitChars sep s.data).map String.mk

/-- Lexicographic comparison of two character sequences, character codes compared
as numbers; the first difference decides and a proper prefix is smaller. -/
def ltChars : List Char → List Char → Bool
  | _, [] => false
  | [], _ :: _ => true
  | a :: as, b :: bs =>
    if a.toNat < b.toNat then true
    else if b.toNat < a.toNat then false
    else ltChars as bs

/-- Go's `a < b` on strings. -/
def strLt (a b : String) : Bool := ltChars a.data b.data

/-- Two's-complement wrap-around of an `int64` result. -/
def wrapInt64 (x : Int) : Int := (x + 2 ^ 63) % 2 ^ 64 - 2 ^ 63

/-! ## The ordering rule -/

/-- The source's `dockerImages.Less(i, j)`, on the entries `di = d[i]` and `dj = d[j]`. -/
def dockerImages.Less (di dj : dockerImage) : Bool :=
  if di.Tag = "latest" then true
  else if dj.Tag = "latest" then false
  else strLt dj.Tag di.Tag

/-- One pass of the inner loop of Go's insertion sort
(`for j := i; j > a && data.Less(j, j-1); j-- { data.Swap(j, j-1) }`): the new
entry `x` moves left past every entry it is `Less` than.  The sorted prefix is
given back to front, and so is the result. -/
def insertBack (x : dockerImage) : List dockerImage → List dockerImage
  | [] => [x]
  | y :: ys => if dockerImages.Less x y then y :: insertBack x ys else x :: y :: ys

/-- The outer loop of the insertion sort, the sorted prefix kept back to front. -/
def sortLoop : List dockerImage → List dockerImage → List dockerImage
  | acc, [] => acc
  | acc, x :: rest => sortLoop (insertBack x acc) rest

/-- Go's `sort.Sort(v)` with `dockerImages.Less`, modelled by the insertion sort
the library runs on short slices.  On groups with pairwise distinct tags every
correct sorting procedure returns this same sequence (see `sortSort_unique`).
The library's sort is not stable: on a group with equal tags it may leave the
tied entries in another order than this one, so what depends on that order is
stated for an arbitrary sequence or for groups with pairwise distinct tags. -/
def sortSort (v : dockerImages) : dockerImages :=
  (sortLoop [] v).reverse

/-- The order the ordering rule asks for: `a` may stand before `b` when `b` is not
tagged "latest" and, unless `a` is the "latest" entry, the tag of `a` is the
greater one. -/
def Precedes (a b : dockerImage) : Prop :=
  b.Tag ≠ "latest" ∧ (a.Tag ≠ "latest" → strLt b.Tag a.Tag = true)

/-- Go's `sort.IsSorted`: no entry is `Less` than the entry just before it. -/
def IsSorted (d : dockerImages) : Prop :=
  List.Chain' (fun a b => dockerImages.Less b a = false) d

/-- The tags of a group are pairwise distinct. -/
def DistinctTags (v : dockerImages) : Prop := (v.map (fun di => di.Tag)).Nodup

instance (v : dockerImages) : Decidable (DistinctTags v) := by
  unfold DistinctTags; infer_instance

/-! ## Selection: `filterImages` -/

/-- The body of `for idx, di := range v` in `filterImages`, from position `idx`
on, with the current `idsForDel` and `isContinue`. -/
def filterLoop (tNum : Int) (tTime : String) (isTrimByNum isTrimByTime : Bool) (vLen : Int) :
    Nat → List dockerImage → List String → Bool → Option (List String)
  | _, [], idsForDel, _ => some idsForDel
  | idx, di :: rest, idsForDel, isContinue =>
    match (stringsSplit di.ID idSplit)[1]? with
    | none => none
    | some id =>
      if isContinue then
        if isTrimByTime && strLt di.Tag tTime then
          filterLoop tNum tTime isTrimByNum isTrimByTime vLen (idx + 1) rest (idsForDel ++ [id]) false
        else if isTrimByNum && decide (vLen > tNum)
            && decide ((idx : Int) = wrapInt64 (tNum - 1)) then
          filterLoop tNum tTime isTrimByNum isTrimByTime vLen (idx + 1) rest idsForDel false
        else
          filterLoop tNum tTime isTrimByNum isTrimByTime vLen (idx + 1) rest idsForDel true
      else
        filterLoop tNum tTime isTrimByNum isTrimByTime vLen (idx + 1) rest (idsForDel ++ [id]) false

/-- The outer loop `for _, v := range images` of `filterImages`. -/
def filterGroups (tNum : Int) (tTime : String) (isTrimByNum isTrimByTime : Bool) :
    ImageMap → List String → Option (List String)
  | [], idsForDel => some idsForDel
  | (_, v) :: rest, idsForDel =>
    match filterLoop tNum tTime isTrimByNum isTrimByTime ((sortSort v).length : Int) 0
        (sortSort v) idsForDel (isTrimByTime || isTrimByNum) with
    | none => none
    | some ids => filterGroups tNum tTime isTrimByNum isTrimByTime rest ids

/-- The source's `filterImages`. -/
def filterImages (images : ImageMap) (tNum : Int) (tTime : String)
    (isTrimByNum isTrimByTime : Bool) : Option (List String) :=
  filterGroups tNum tTime isTrimByNum isTrimByTime images []

/-- The core identifier `strings.Split(di.ID, ":")[1]` of an entry whose
identifier contains the separator (the empty string stands in otherwise). -/
def coreId (di : dockerImage) : String :=
  ((stringsSplit di.ID idSplit)[1]?).getD ""

/-- The identifier has a separator, so that `strings.Split(ID, ":")[1]` exists. -/
def HasSep (s : String) : Prop := ':' ∈ s.data

instance (s : String) : Decidable (HasSep s) := by
  unfold HasSep; infer_instance

/-- Every entry of every group of the map has an identifier with a separator. -/
def IdsOk (images : ImageMap) : Prop :=
  ∀ g ∈ images, ∀ di ∈ g.2, HasSep di.ID

instance (images : ImageMap) : Decidable (IdsOk images) := by
  unfold IdsOk; infer_instance

/-- The entries the walk of `filterImages` appends, from position `idx` on while
`isContinue` is still set: the entry that crosses the time threshold and all
after it, or all entries after the count boundary. -/
def selFrom (tNum : Int) (tTime : String) (isTrimByNum isTrimByTime : Bool) (vLen : Int) :
    Nat → List dockerImage → List dockerImage
  | _, [] => []
  | idx, di :: rest =>
    if isTrimByTime && strLt di.Tag tTime then di :: rest
    else if isTrimByNum && decide (vLen > tNum)
        && decide ((idx : Int) = wrapInt64 (tNum - 1)) then rest
    else selFrom tNum tTime isTrimByNum isTrimByTime vLen (idx + 1) rest

/-- The entries of one group that `filterImages` selects, in the order of the walk. -/
def selectedOf (tNum : Int) (tTime : String) (isTrimByNum isTrimByTime : Bool)
    (v : dockerImages) : List dockerImage :=
  if isTrimByTime || isTrimByNum then
    selFrom tNum tTime isTrimByNum isTrimByTime ((sortSort v).length : Int) 0 (sortSort v)
  else sortSort v

/-! ## Grouping: `groupImages` -/

/-- The test `_, ok := images[repo]`. -/
def mapHas : ImageMap → String → Bool
  | [], _ => false
  | (k, _) :: rest, repo => if k = repo then true else mapHas rest repo

/-- The read `images[repo]`, the nil slice when the key is absent. -/
def mapGet : ImageMap → String → dockerImages
  | [], _ => []
  | (k, v) :: rest, repo => if k = repo then v else mapGet rest repo

/-- The write `images[repo] = v`. -/
def mapSet : ImageMap → String → dockerImages → ImageMap
  | [], repo, v => [(repo, v)]
  | (k, w) :: rest, repo, v => if k = repo then (k, v) :: rest else (k, w) :: mapSet rest repo v

/-- The statement `if _, ok := images[repo]; !ok { images[repo] = make(dockerImages, 0) }`. -/
def mapEnsure (images : ImageMap) (repo : String) : ImageMap :=
  if mapHas images repo then images else mapSet images repo []

/-- The body both branches of `groupImages` run for one reference: split it,
take `rt[0]` and `rt[1]`, and append the entry under the repository key. -/
def addRepoTag (images : ImageMap) (imageID repoTag : String) : Option ImageMap :=
  match (stringsSplit repoTag tagSplit)[0]?, (stringsSplit repoTag tagSplit)[1]? with
  | some repo, some tag =>
    some (mapSet (mapEnsure images repo) repo
      (mapGet (mapEnsure images repo) repo ++ [⟨imageID, tag⟩]))
  | _, _ => none

/-- The inner loop `for _, repoTag := range image.RepoTags` of the first branch. -/
def tagLoop (imageID : String) : List String → ImageMap → Option ImageMap
  | [], images => some images
  | repoTag :: rest, images =>
    match addRepoTag images imageID repoTag with
    | none => none
    | some images2 => tagLoop imageID rest images2

/-- One round of `for _, image := range imageList`: the loop over all references
when there is more than one, `image.RepoTags[0]` alone otherwise. -/
def groupStep (images : ImageMap) (image : ImageSummary) : Option ImageMap :=
  if image.RepoTags.length > 1 then
    tagLoop image.ID image.RepoTags images
  else
    match image.RepoTags[0]? with
    | none => none
    | some repoTag => addRepoTag images image.ID repoTag

/-- The loop `for _, image := range imageList` of `groupImages`. -/
def groupLoop : List ImageSummary → ImageMap → Option ImageMap
  | [], images => some images
  | image :: rest, images =>
    match groupStep images image with
    | none => none
    | some images2 => groupLoop rest images2

/-- The source's `groupImages`, on the inventory `imageList` the daemon returned. -/
def groupImages (imageList : List ImageSummary) : Option ImageMap :=
  groupLoop imageList []

/-- Every (record ID, reference) pair of the inventory, in scan order. -/
def allRefs (imageList : List ImageSummary) : List (String × String) :=
  imageList.flatMap (fun image => image.RepoTags.map (fun repoTag => (image.ID, repoTag)))

/-- One uniform fold over all references, the same step for every one of them. -/
def uniformFold : List (String × String) → ImageMap → Option ImageMap
  | [], images => some images
  | (imageID, repoTag) :: rest, images =>
    match addRepoTag images imageID repoTag with
    | none => none
    | some images2 => uniformFold rest images2

/-- The text of a reference before its first separator. -/
def repoOf (repoTag : String) : String :=
  String.mk (repoTag.data.takeWhile (fun c => c != tagSplit))

/-- The tag `rt[1]` of a reference with a separator (the empty string otherwise). -/
def tagOf (repoTag : String) : String :=
  ((stringsSplit repoTag tagSplit)[1]?).getD ""

/-- The entries a sequence of (record ID, reference) pairs puts under the key `r`. -/
def entriesFor (r : String) (refs : List (String × String)) : dockerImages :=
  (refs.filter (fun p => decide (repoOf p.2 = r))).map (fun p => ⟨p.1, tagOf p.2⟩)

/-- Every record has a reference and every reference has a separator. -/
def WellFormed (imageList : List ImageSummary) : Prop :=
  ∀ image ∈ imageList, image.RepoTags ≠ [] ∧ ∀ repoTag ∈ image.RepoTags, HasSep repoTag

instance (imageList : List ImageSummary) : Decidable (WellFormed imageList) := by
  unfold WellFormed; infer_instance

/-- An inventory with a two-reference record and a one-reference record. -/
def sampleInventory : List ImageSummary :=
  [⟨"sha256:x", ["app:v1", "app:v2"]⟩, ⟨"sha256:y", ["db:latest"]⟩]

/-! ## Worked example of the specification -/

def id1 : dockerImage := ⟨"sha256:id1", "2024-01"⟩
def id2 : dockerImage := ⟨"sha256:id2", "2024-06"⟩
def id3 : dockerImage := ⟨"sha256:id3", "latest"⟩

def appGroup : dockerImages := [id1, id2, id3]

def appMap : ImageMap := [("app", appGroup)]

/-- A group whose "latest" entry compares below the threshold "v2". -/
def webMap : ImageMap := [("web", [⟨"sha256:a", "latest"⟩, ⟨"sha256:b", "v3"⟩])]

/-- A group with two entries below the threshold "2024-03". -/
def oldMap : ImageMap := [("app", [⟨"sha256:id1", "2024-01"⟩, ⟨"sha256:id2", "2024-02"⟩])]

/-! ## Results per group -/

/-- The concatenation of a sequence of results, a failed one failing the whole. -/
def concatResults : List (Option (List String)) → Option (List String)
  | [] => some []
  | none :: _ => none
  | some x :: rest =>
    match concatResults rest with
    | none => none
    | some y => some (x ++ y)

/-- A record with two references in the same repository. -/
def twinInventory : List ImageSummary := [⟨"sha256:x", ["app:v1", "app:v2"]⟩]

/-- The group `groupImages` builds from `twinInventory`. -/
def twinMap : ImageMap := [("app", [⟨"sha256:x", "v1"⟩, ⟨"sha256:x", "v2"⟩])]

/-! ## Cleaning and the orchestrator -/

/-- The source's `stringInArray`. -/
def stringInArray : List String → String → Bool
  | [], _ => false
  | v :: rest, str => if v = str then true else stringInArray rest str

/-- What a run does, in order: the stages `trimImages` enters, the calls it makes
on the docker client with their outcome (`ok` is `err == nil`), the "skip" lines
of the cleaning loop, and a run-time panic. -/
inductive Event where
  | prune (ok : Bool)
  | group (isTrimByName : Bool) (tName : String)
  | select (tNum : Int) (tTime : String) (isTrimByNum isTrimByTime : Bool)
  | clean (imageIds : List String) (isForce : Bool)
  | remove (id : String) (force : Bool) (ok : Bool)
  | skip (id : String)
  | panic
deriving DecidableEq, Repr

/-- The docker daemon as the run sees it: the inventory `cli.ImageList` returns
with or without the reference filter, whether `cli.ImageRemove` succeeds for an
identifier after the given earlier calls, and whether `cli.ImagesPrune` succeeds. -/
structure Daemon where
  ImageList : Bool → String → List ImageSummary
  ImageRemove : List String → String → Bool
  ImagesPrune : Bool

/-- The loop `for _, id := range imageIds` of `cleanImages`, with the current
`idsDeleted`. -/
def cleanLoop (ImageRemove : List String → String → Bool) (isForce : Bool) :
    List String → List String → List Event
  | [], _ => []
  | id :: rest, idsDeleted =>
    if isForce && stringInArray idsDeleted id then
      Event.skip id :: cleanLoop ImageRemove isForce rest idsDeleted
    else
      Event.remove id isForce (ImageRemove idsDeleted id) ::
        cleanLoop ImageRemove isForce rest (idsDeleted ++ [id])

/-- The source's `cleanImages`. -/
def cleanImages (ImageRemove : List String → String → Bool) (imageIds : List String)
    (isForce : Bool) : List Event :=
  cleanLoop ImageRemove isForce imageIds []

/-- The source's `trimImages`, with a daemon that can be reached. -/
def trimImages (d : Daemon) (tNum : Int) (tTime tName : String) (isForce : Bool) :
    List Event :=
  let isTrimByNum := tNum != defaultNum
  let isTrimByTime := tTime != defaultTime
  let isTrimByName := tName != defaultName
  if !isTrimByName && !isTrimByNum && !isTrimByTime then
    [Event.prune d.ImagesPrune]
  else
    Event.group isTrimByName tName ::
      match groupImages (d.ImageList isTrimByName tName) with
      | none => [Event.panic]
      | some images =>
        Event.select tNum tTime isTrimByNum isTrimByTime ::
          match filterImages images tNum tTime isTrimByNum isTrimByTime with
          | none => [Event.panic]
          | some idsForDel =>
            Event.clean idsForDel isForce :: cleanImages d.ImageRemove idsForDel isForce

/-- The identifiers `cli.ImageRemove` is called for, in order. -/
def removeCalls : List Event → List String
  | [] => []
  | Event.remove id _ _ :: rest => id :: removeCalls rest
  | _ :: rest => removeCalls rest

/-- A list with every later duplicate removed: each distinct element once, in the
order of first occurrence. -/
def dedupFirst : List String → List String
  | [] => []
  | x :: xs => x :: (dedupFirst xs).filter (fun y => decide (y ≠ x))

/-- The elements of a list that are new with respect to `seen` and to the
elements before them. -/
def newIds : List String → List String → List String
  | _, [] => []
  | seen, x :: xs => if x ∈ seen then newIds seen xs else x :: newIds (seen ++ [x]) xs

/-- A daemon holding the inventory of the worked example, one record per tag. -/
def appDaemon : Daemon where
  ImageList := fun _ _ =>
    [⟨"sha256:id1", ["app:2024-01"]⟩, ⟨"sha256:id2", ["app:2024-06"]⟩,
      ⟨"sha256:id3", ["app:latest"]⟩]
  ImageRemove := fun _ _ => true
  ImagesPrune := true

/-- A daemon whose inventory holds a reference without a separator. -/
def brokenDaemon : Daemon where
  ImageList := fun _ _ => [⟨"sha256:x", ["app:v1"]⟩, ⟨"sha256:y", ["db"]⟩]
  ImageRemove := fun _ _ => true
  ImagesPrune := true

/-! ## Segments of a string -/

/-- The text between the first separator of a string and its second one, or the
end of the string when there is no second one. -/
def secondSegment (s : String) : String :=
  String.mk (((s.data.dropWhile (fun c => c != ':')).drop 1).takeWhile (fun c => c != ':'))

/-- Two references to different repositories of a registry given with its port. -/
def registryInventory : List ImageSummary :=
  [⟨"sha256:x", ["localhost:5000/app:v1"]⟩, ⟨"sha256:y", ["localhost:5000/db:v2"]⟩]

/-! ## The closed form of the selection -/

/-- The least position of an entry whose tag is below the threshold when the time
filter is on, the length of the sequence when there is none or the filter is off. -/
def belowIdx (tTime : String) (isTrimByTime : Bool) (s : List dockerImage) : Nat :=
  if isTrimByTime then s.findIdx (fun di => strLt di.Tag tTime) else s.length

/-- The position from which the entries of the sorted sequence `s` are selected:
`0` with both filters off, otherwise the smaller of the first position below the
threshold and of `K` when the count filter is on with `1 ≤ K < n`. -/
def cutIndex (s : List dockerImage) (K : Int) (tTime : String)
    (isTrimByNum isTrimByTime : Bool) : Nat :=
  if !isTrimByNum && !isTrimByTime then 0
  else
    min (if isTrimByTime then s.findIdx (fun di => strLt di.Tag tTime) else s.length)
      (if isTrimByNum && decide (1 ≤ K) && decide (K < (s.length : Int)) then K.toNat
        else s.length)

/-! ## Strings -/

theorem ltChars_irrefl (l : List Char) : ltChars l l = false := by
  induction l with
  | nil => rfl
  | cons a as ih => simp [ltChars, ih]

theorem ltChars_asymm : ∀ (a b : List Char), ltChars a b = true → ltChars b a = false
  | _, [], h => by simp [ltChars] at h
  | [], _ :: _, _ => by simp [ltChars]
  | a :: as, b :: bs, h => by
    simp only [ltChars] at h ⊢
    by_cases h1 : a.toNat < b.toNat
    · have h2 : ¬ b.toNat < a.toNat := by omega
      simp [h2, h1]
    · by_cases h2 : b.toNat < a.toNat
      · simp [h1, h2] at h
      · simp only [h1, h2, if_false] at h ⊢
        exact ltChars_asymm as bs h

theorem ltChars_trans : ∀ (a b c : List Char),
    ltChars a b = true → ltChars b c = true → ltChars a c = true
  | _, [], _, h, _ => by simp [ltChars] at h
  | _, _ :: _, [], _, h => by simp [ltChars] at h
  | [], _ :: _, _ :: _, _, _ => by simp [ltChars]
  | a :: as, b :: bs, c :: cs, h1, h2 => by
    simp only [ltChars] at h1 h2 ⊢
    by_cases hab : a.toNat < b.toNat
    · by_cases hbc : b.toNat < c.toNat
      · have : a.toNat < c.toNat := by omega
        simp [this]
      · by_cases hcb : c.toNat < b.toNat
        · simp [hbc, hcb] at h2
        · have : a.toNat < c.toNat := by omega
          simp [this]
    · by_cases hba : b.toNat < a.toNat
      · simp [hab, hba] at h1
      · simp only [hab, hba, if_false] at h1
        by_cases hbc : b.toNat < c.toNat
        · have : a.toNat < c.toNat := by omega
          simp [this]
        · by_cases hcb : c.toNat < b.toNat
          · simp [hbc, hcb] at h2
          · simp only [hbc, hcb, if_false] at h2
            have e1 : ¬ a.toNat < c.toNat := by omega
            have e2 : ¬ c.toNat < a.toNat := by omega
            simp only [e1, e2, if_false]
            exact ltChars_trans as bs cs h1 h2

theorem char_eq_of_toNat_eq {a b : Char} (h : a.toNat = b.toNat) : a = b := by
  apply Char.ext
  apply UInt32.ext
  exact h

theorem ltChars_total : ∀ (a b : List Char), a ≠ b → ltChars a b = true ∨ ltChars b a = true
  | [], [], h => absurd rfl h
  | [], _ :: _, _ => by simp [ltChars]
  | _ :: _, [], _ => by simp [ltChars]
  | a :: as, b :: bs, h => by
    simp only [ltChars]
    by_cases h1 : a.toNat < b.toNat
    · simp [h1]
    · by_cases h2 : b.toNat < a.toNat
      · simp [h2]
      · simp only [h1, h2, if_false]
        have hab : a = b := char_eq_of_toNat_eq (by omega)
        subst hab
        exact ltChars_total as bs (fun e => h (by rw [e]))

theorem strLt_irrefl (a : String) : strLt a a = false := ltChars_irrefl a.data

theorem strLt_asymm {a b : String} (h : strLt a b = true) : strLt b a = false :=
  ltChars_asymm _ _ h

theorem strLt_trans {a b c : String} (h1 : strLt a b = true) (h2 : strLt b c = true) :
    strLt a c = true :=
  ltChars_trans _ _ _ h1 h2

theorem strLt_total {a b : String} (h : a ≠ b) : strLt a b = true ∨ strLt b a = true :=
  ltChars_total _ _ (fun e => h (String.ext e))

/-! ## Splitting -/

theorem splitChars_ne_nil (sep : Char) (l : List Char) : splitChars sep l ≠ [] := by
  induction l with
  | nil => simp [splitChars]
  | cons c cs ih =>
    simp only [splitChars]
    split
    · simp
    · split <;> simp

theorem splitChars_second (sep : Char) (l : List Char) :
    (∃ w, (splitChars sep l)[1]? = some w) ↔ sep ∈ l := by
  induction l with
  | nil => simp [splitChars]
  | cons c cs ih =>
    simp only [splitChars]
    by_cases hc : c = sep
    · subst hc
      simp only [if_true, List.mem_cons, true_or, iff_true]
      cases h : splitChars c cs with
      | nil => exact absurd h (splitChars_ne_nil _ _)
      | cons w ws => exact ⟨w, by simp⟩
    · have hc2 : ¬ sep = c := fun e => hc e.symm
      simp only [hc, if_false, List.mem_cons, hc2, false_or]
      rw [← ih]
      cases h : splitChars sep cs with
      | nil => exact absurd h (splitChars_ne_nil _ _)
      | cons w ws => simp

theorem stringsSplit_second {s : String} (h : HasSep s) :
    ∃ w, (stringsSplit s ':')[1]? = some w := by
  obtain ⟨w, hw⟩ := (splitChars_second ':' s.data).2 h
  exact ⟨String.mk w, by simp [stringsSplit, List.getElem?_map, hw]⟩

theorem stringsSplit_second_none {s : String} (h : ¬ HasSep s) :
    (stringsSplit s ':')[1]? = none := by
  cases hq : (splitChars ':' s.data)[1]? with
  | none => simp [stringsSplit, List.getElem?_map, hq]
  | some w => exact absurd ((splitChars_second ':' s.data).1 ⟨w, hq⟩) h

theorem coreId_spec {di : dockerImage} (h : HasSep di.ID) :
    (stringsSplit di.ID idSplit)[1]? = some (coreId di) := by
  obtain ⟨w, hw⟩ := stringsSplit_second h
  simp only [coreId, idSplit, hw, Option.getD_some]

/-! ## The ordering step -/

theorem insertBack_perm (x : dockerImage) (l : List dockerImage) :
    (insertBack x l).Perm (x :: l) := by
  induction l with
  | nil => exact List.Perm.refl _
  | cons y ys ih =>
    simp only [insertBack]
    split
    · exact (List.Perm.cons y ih).trans (List.Perm.swap x y ys)
    · exact List.Perm.refl _

theorem sortLoop_perm (l acc : List dockerImage) : (sortLoop acc l).Perm (acc ++ l) := by
  induction l generalizing acc with
  | nil => simp [sortLoop]
  | cons x rest ih =>
    simp only [sortLoop]
    refine (ih (insertBack x acc)).trans ?_
    refine ((insertBack_perm x acc).append_right rest).trans ?_
    have hm : (acc ++ x :: rest).Perm (x :: (acc ++ rest)) := List.perm_middle
    simpa using hm.symm

theorem sortSort_perm (v : dockerImages) : (sortSort v).Perm v := by
  unfold sortSort
  exact (List.reverse_perm _).trans (by simpa using sortLoop_perm v [])

theorem mem_sortSort {v : dockerImages} {di : dockerImage} : di ∈ sortSort v ↔ di ∈ v :=
  (sortSort_perm v).mem_iff

theorem length_sortSort (v : dockerImages) : (sortSort v).length = v.length :=
  (sortSort_perm v).length_eq

theorem Precedes.trans {a b c : dockerImage} (h1 : Precedes a b) (h2 : Precedes b c) :
    Precedes a c :=
  ⟨h2.1, fun ha => strLt_trans (h2.2 h1.1) (h1.2 ha)⟩

theorem Precedes.antisymm {a b : dockerImage} (h1 : Precedes a b) (h2 : Precedes b a) :
    a = b := by
  have e1 := h1.2 h2.1
  have e2 := strLt_asymm (h2.2 h1.1)
  rw [e1] at e2
  exact absurd e2 (by simp)

theorem precedes_of_less {x y : dockerImage} (hne : x.Tag ≠ y.Tag)
    (h : dockerImages.Less x y = true) : Precedes x y := by
  unfold dockerImages.Less at h
  by_cases hx : x.Tag = "latest"
  · exact ⟨fun hy => hne (hx.trans hy.symm), fun hx2 => absurd hx hx2⟩
  · by_cases hy : y.Tag = "latest"
    · simp [hx, hy] at h
    · simp only [hx, hy, if_false] at h
      exact ⟨hy, fun _ => h⟩

theorem precedes_of_not_less {x y : dockerImage} (hne : x.Tag ≠ y.Tag)
    (h : dockerImages.Less x y = false) : Precedes y x := by
  unfold dockerImages.Less at h
  by_cases hx : x.Tag = "latest"
  · simp [hx] at h
  · refine ⟨hx, fun hy => ?_⟩
    simp only [hx, hy, if_false] at h
    rcases strLt_total hne with h2 | h2
    · exact h2
    · rw [h] at h2
      exact absurd h2 (by simp)

theorem insertBack_sorted (x : dockerImage) (acc : List dockerImage)
    (hs : List.Pairwise (fun a b => Precedes b a) acc)
    (hne : ∀ y ∈ acc, x.Tag ≠ y.Tag) :
    List.Pairwise (fun a b => Precedes b a) (insertBack x acc) := by
  induction acc with
  | nil => simp [insertBack]
  | cons y ys ih =>
    have hy := List.pairwise_cons.1 hs
    simp only [insertBack]
    by_cases hl : dockerImages.Less x y = true
    · simp only [hl, if_true]
      refine List.pairwise_cons.2 ⟨?_, ih hy.2 (fun z hz => hne z (List.mem_cons_of_mem _ hz))⟩
      intro z hz
      rcases List.mem_cons.1 ((insertBack_perm x ys).mem_iff.1 hz) with e | e
      · subst e
        exact precedes_of_less (hne y (List.mem_cons_self _ _)) hl
      · exact hy.1 z e
    · have hl2 : dockerImages.Less x y = false := by simpa using hl
      simp only [hl2]
      have hyx : Precedes y x := precedes_of_not_less (hne y (List.mem_cons_self _ _)) hl2
      refine List.pairwise_cons.2 ⟨?_, hs⟩
      intro z hz
      rcases List.mem_cons.1 hz with e | e
      · subst e
        exact hyx
      · exact (hy.1 z e).trans hyx

theorem sortLoop_sorted (l acc : List dockerImage)
    (hs : List.Pairwise (fun a b => Precedes b a) acc)
    (hd : DistinctTags (acc ++ l)) :
    List.Pairwise (fun a b => Precedes b a) (sortLoop acc l) := by
  induction l generalizing acc with
  | nil => simpa [sortLoop] using hs
  | cons x rest ih =>
    simp only [sortLoop]
    have hp : (insertBack x acc ++ rest).Perm (acc ++ x :: rest) :=
      ((insertBack_perm x acc).append_right rest).trans
        (by
          have hm : (acc ++ x :: rest).Perm (x :: (acc ++ rest)) := List.perm_middle
          simpa using hm.symm)
    apply ih
    · apply insertBack_sorted x acc hs
      intro y hy he
      unfold DistinctTags at hd
      rw [List.map_append, List.map_cons] at hd
      have hdis := (List.nodup_append.1 hd).2.2
      exact hdis (List.mem_map_of_mem (fun di => di.Tag) hy) (by simp [he])
    · unfold DistinctTags at hd ⊢
      exact ((hp.map _).nodup_iff).2 hd

theorem sortSort_sorted {v : dockerImages} (hd : DistinctTags v) :
    List.Pairwise Precedes (sortSort v) := by
  unfold sortSort
  rw [List.pairwise_reverse]
  exact sortLoop_sorted v [] List.Pairwise.nil (by simpa using hd)

theorem pairwise_precedes_of_isSorted {out : dockerImages} (hd : DistinctTags out)
    (hs : IsSorted out) : List.Pairwise Precedes out := by
  unfold IsSorted at hs
  unfold DistinctTags at hd
  have hne : List.Pairwise (fun a b : dockerImage => a.Tag ≠ b.Tag) out :=
    (List.pairwise_map (f := fun di : dockerImage => di.Tag) (R := fun a b => a ≠ b)).1 hd
  induction out with
  | nil => exact List.Pairwise.nil
  | cons a t ih =>
    have ht : List.Pairwise Precedes t :=
      ih (List.nodup_cons.1 (by simpa using hd)).2 (List.Chain'.tail hs) (List.pairwise_cons.1 hne).2
    refine List.pairwise_cons.2 ⟨?_, ht⟩
    cases t with
    | nil => simp
    | cons b t2 =>
      have hab : Precedes a b := by
        have h1 : dockerImages.Less b a = false := (List.chain'_cons.1 hs).1
        have h2 : a.Tag ≠ b.Tag := (List.pairwise_cons.1 hne).1 b (List.mem_cons_self _ _)
        exact precedes_of_not_less (fun e => h2 e.symm) h1
      intro z hz
      rcases List.mem_cons.1 hz with e | e
      · subst e
        exact hab
      · exact hab.trans ((List.pairwise_cons.1 ht).1 z e)

theorem sortSort_unique {v out : dockerImages} (hd : DistinctTags v)
    (hp : out.Perm v) (hs : IsSorted out) : out = sortSort v := by
  have hdo : DistinctTags out := by
    unfold DistinctTags at hd ⊢
    exact ((hp.map _).nodup_iff).2 hd
  haveI : IsAntisymm dockerImage Precedes := ⟨fun _ _ => Precedes.antisymm⟩
  exact List.eq_of_perm_of_sorted (hp.trans (sortSort_perm v).symm)
    (pairwise_precedes_of_isSorted hdo hs) (sortSort_sorted hd)

/-! ## The selection walk -/

theorem filterLoop_ok (tNum : Int) (tTime : String) (n t : Bool) (vLen : Int)
    (l : List dockerImage) (idx : Nat) (ids : List String) (c : Bool)
    (h : ∀ di ∈ l, HasSep di.ID) :
    filterLoop tNum tTime n t vLen idx l ids c =
      some (ids ++ (if c then selFrom tNum tTime n t vLen idx l else l).map coreId) := by
  induction l generalizing idx ids c with
  | nil => cases c <;> simp [filterLoop, selFrom]
  | cons di rest ih =>
    have hr : ∀ d ∈ rest, HasSep d.ID := fun d hd => h d (List.mem_cons_of_mem _ hd)
    have hid := coreId_spec (h di (List.mem_cons_self _ _))
    simp only [filterLoop, hid, selFrom]
    cases c with
    | false => simp [ih _ _ _ hr]
    | true =>
      simp only [if_true]
      split
      · simp [ih _ _ _ hr]
      · split
        · simp [ih _ _ _ hr]
        · simp [ih _ _ _ hr]

theorem filterLoop_fail (tNum : Int) (tTime : String) (n t : Bool) (vLen : Int)
    (l : List dockerImage) (idx : Nat) (ids : List String) (c : Bool)
    (h : ∃ di ∈ l, ¬ HasSep di.ID) :
    filterLoop tNum tTime n t vLen idx l ids c = none := by
  induction l generalizing idx ids c with
  | nil => simp at h
  | cons di rest ih =>
    by_cases hd : HasSep di.ID
    · have hr : ∃ d ∈ rest, ¬ HasSep d.ID := by
        obtain ⟨d, hm, hn⟩ := h
        rcases List.mem_cons.1 hm with e | e
        · subst e
          exact absurd hd hn
        · exact ⟨d, e, hn⟩
      simp only [filterLoop, coreId_spec hd]
      cases c with
      | false => simp [ih _ _ _ hr]
      | true =>
        simp only [if_true]
        split
        · exact ih _ _ _ hr
        · split
          · exact ih _ _ _ hr
          · exact ih _ _ _ hr
    · have hn := stringsSplit_second_none hd
      simp only [filterLoop, idSplit, hn]

theorem filterGroups_ok (tNum : Int) (tTime : String) (n t : Bool)
    (images : ImageMap) (ids : List String) (h : IdsOk images) :
    filterGroups tNum tTime n t images ids =
      some (ids ++ images.flatMap (fun g => (selectedOf tNum tTime n t g.2).map coreId)) := by
  induction images generalizing ids with
  | nil => simp [filterGroups]
  | cons g rest ih =>
    obtain ⟨r, v⟩ := g
    have hv : ∀ di ∈ sortSort v, HasSep di.ID := fun di hdi =>
      h (r, v) (List.mem_cons_self _ _) di (mem_sortSort.1 hdi)
    have hrest : IdsOk rest := fun g hg => h g (List.mem_cons_of_mem _ hg)
    simp only [filterGroups, filterLoop_ok _ _ _ _ _ _ _ _ _ hv, ih _ hrest,
      List.flatMap_cons, selectedOf]
    cases t <;> cases n <;> simp

theorem filterGroups_fail (tNum : Int) (tTime : String) (n t : Bool)
    (images : ImageMap) (ids : List String) (h : ¬ IdsOk images) :
    filterGroups tNum tTime n t images ids = none := by
  induction images generalizing ids with
  | nil => exact absurd (fun g hg => by simp at hg) h
  | cons g rest ih =>
    obtain ⟨r, v⟩ := g
    by_cases hv : ∀ di ∈ v, HasSep di.ID
    · have hv2 : ∀ di ∈ sortSort v, HasSep di.ID := fun di hdi => hv di (mem_sortSort.1 hdi)
      have hrest : ¬ IdsOk rest := by
        intro hr
        apply h
        intro g hg
        rcases List.mem_cons.1 hg with e | e
        · subst e
          exact hv
        · exact hr g e
      simp only [filterGroups, filterLoop_ok _ _ _ _ _ _ _ _ _ hv2, ih _ hrest]
    · have hv2 : ∃ di ∈ sortSort v, ¬ HasSep di.ID := by
        by_contra hc
        apply hv
        intro di hdi
        by_contra hn
        exact hc ⟨di, mem_sortSort.2 hdi, hn⟩
      simp only [filterGroups, filterLoop_fail _ _ _ _ _ _ _ _ _ hv2]

theorem filterImages_ok (tNum : Int) (tTime : String) (n t : Bool)
    (images : ImageMap) (h : IdsOk images) :
    filterImages images tNum tTime n t =
      some (images.flatMap (fun g => (selectedOf tNum tTime n t g.2).map coreId)) := by
  unfold filterImages
  rw [filterGroups_ok _ _ _ _ _ _ h]
  simp

theorem filterImages_fail (tNum : Int) (tTime : String) (n t : Bool)
    (images : ImageMap) (h : ¬ IdsOk images) :
    filterImages images tNum tTime n t = none :=
  filterGroups_fail _ _ _ _ _ _ h

/-! ## Closed forms of the walk -/

theorem wrapInt64_of_range {x : Int} (h1 : -2 ^ 63 ≤ x) (h2 : x < 2 ^ 63) :
    wrapInt64 x = x := by
  unfold wrapInt64
  norm_num at h1 h2 ⊢
  omega

theorem selFrom_count (K : Nat) (hK1 : 1 ≤ K) (hK2 : (K : Int) < 2 ^ 63) (tTime : String)
    (m : Nat) (l : List dockerImage) (idx : Nat) (hlen : idx + l.length = m) (hidx : idx < K) :
    selFrom (K : Int) tTime true false (m : Int) idx l = l.drop (K - idx) := by
  have hw : wrapInt64 ((K : Int) - 1) = (K : Int) - 1 :=
    wrapInt64_of_range (by norm_num; omega) (by omega)
  induction l generalizing idx with
  | nil => simp [selFrom]
  | cons di rest ih =>
    have hd : K - idx = (K - idx - 1) + 1 := by omega
    simp only [selFrom, hw, Bool.false_and, Bool.true_and]
    rw [hd, List.drop_succ_cons]
    by_cases hb : ((m : Int) > (K : Int)) ∧ ((idx : Int) = (K : Int) - 1)
    · have e : K - idx - 1 = 0 := by omega
      simp [hb.1, hb.2, e]
    · have hb2 : (decide ((m : Int) > (K : Int)) && decide ((idx : Int) = (K : Int) - 1))
          = false := by
        simpa using hb
      simp only [hb2]
      by_cases hlt : idx + 1 < K
      · have := ih (idx + 1) (by simp at hlen; omega) hlt
        simp only [Bool.false_eq_true, if_false]
        rw [this]
        congr 1
      · have hrest : rest = [] := by
          apply List.eq_nil_of_length_eq_zero
          simp at hlen
          by_contra hne
          apply hb
          constructor <;> omega
        subst hrest
        simp [selFrom]

theorem selFrom_count_none (tNum : Int) (tTime : String) (vLen : Int)
    (l : List dockerImage) (idx : Nat)
    (h : ∀ i : Nat, idx ≤ i → i < idx + l.length →
      ¬ (vLen > tNum ∧ (i : Int) = wrapInt64 (tNum - 1))) :
    selFrom tNum tTime true false vLen idx l = [] := by
  induction l generalizing idx with
  | nil => simp [selFrom]
  | cons di rest ih =>
    have h0 := h idx (Nat.le_refl _) (by simp)
    have hb : (decide (vLen > tNum) && decide ((idx : Int) = wrapInt64 (tNum - 1))) = false := by
      simpa using h0
    simp only [selFrom, Bool.false_and, Bool.true_and, hb]
    apply ih
    intro i hi1 hi2
    exact h i (by omega) (by simp; omega)

theorem selFrom_time (tNum : Int) (tTime : String) (vLen : Int)
    (l : List dockerImage) (idx : Nat) :
    selFrom tNum tTime false true vLen idx l =
      l.dropWhile (fun di => !strLt di.Tag tTime) := by
  induction l generalizing idx with
  | nil => simp [selFrom]
  | cons di rest ih =>
    simp only [selFrom, Bool.false_and, Bool.true_and, List.dropWhile]
    cases hlt : strLt di.Tag tTime with
    | true => simp
    | false => simpa using ih (idx + 1)

theorem mem_selFrom_of_lt (tNum : Int) (tTime : String) (n : Bool) (vLen : Int)
    (l : List dockerImage) (idx : Nat) (di : dockerImage) (hm : di ∈ l)
    (hlt : strLt di.Tag tTime = true) :
    di ∈ selFrom tNum tTime n true vLen idx l := by
  induction l generalizing idx with
  | nil => simp at hm
  | cons d rest ih =>
    simp only [selFrom, Bool.true_and]
    cases hd : strLt d.Tag tTime with
    | true => simpa using hm
    | false =>
      have hr : di ∈ rest := by
        rcases List.mem_cons.1 hm with e | e
        · subst e
          rw [hd] at hlt
          exact absurd hlt (by simp)
        · exact e
      simp only [Bool.false_eq_true, if_false]
      split
      · exact hr
      · exact ih (idx + 1) hr

theorem selFrom_no_time (tNum : Int) (tTime tTime2 : String) (n : Bool) (vLen : Int)
    (l : List dockerImage) (idx : Nat)
    (h : ∀ di ∈ l, strLt di.Tag tTime = false) :
    selFrom tNum tTime n true vLen idx l = selFrom tNum tTime2 n false vLen idx l := by
  induction l generalizing idx with
  | nil => simp [selFrom]
  | cons d rest ih =>
    have hd := h d (List.mem_cons_self _ _)
    simp only [selFrom, hd, Bool.and_false, Bool.false_and, Bool.false_eq_true, if_false]
    rw [ih (idx + 1) (fun di hdi => h di (List.mem_cons_of_mem _ hdi))]

theorem selectedOf_count (K : Nat) (hK1 : 1 ≤ K) (hK2 : (K : Int) < 2 ^ 63) (tTime : String)
    (v : dockerImages) :
    selectedOf (K : Int) tTime true false v = (sortSort v).drop K := by
  unfold selectedOf
  simp only [Bool.or_true, if_true]
  exact selFrom_count K hK1 hK2 tTime (sortSort v).length (sortSort v) 0 (by simp) (by omega)

theorem flatMap_congr_mem {α β : Type} (l : List α) (f g : α → List β)
    (h : ∀ a ∈ l, f a = g a) : l.flatMap f = l.flatMap g := by
  induction l with
  | nil => rfl
  | cons a rest ih =>
    simp only [List.flatMap_cons]
    rw [h a (List.mem_cons_self _ _), ih (fun b hb => h b (List.mem_cons_of_mem _ hb))]

/-! ## Count-only retention -/

theorem walk_count (K : Nat) (hK1 : 1 ≤ K) (hK2 : (K : Int) < 2 ^ 63) (tTime : String)
    (s : List dockerImage) (idsForDel : List String) (hs : ∀ di ∈ s, HasSep di.ID) :
    filterLoop (K : Int) tTime true false (s.length : Int) 0 s idsForDel true =
      some (idsForDel ++ (s.drop K).map coreId) := by
  rw [filterLoop_ok _ _ _ _ _ _ _ _ _ hs]
  simp only [if_true]
  rw [selFrom_count K hK1 hK2 tTime s.length s 0 (by simp) (by omega)]
  simp

/-- C1: with the count filter enabled (`tNum = K ≥ 1`) and the time filter
disabled, the walk of `filterImages` over the sequence `s` that `sort.Sort` left
(whatever order it left entries with equal tags in) appends the core identifiers
of the entries at positions `K, K+1, ..., n-1` of `s`, in that order; the first
`min K n` entries are kept, and a sequence of at most `K` entries gives nothing.
For groups with pairwise distinct tags, where the sorted sequence is determined,
`filterImages` returns these identifiers group after group; for every group it
returns `n - K` identifiers. -/
theorem C1_count_only_keeps_newest (K : Nat) (tTime : String)
    (hK1 : 1 ≤ K) (hK2 : (K : Int) < 2 ^ 63) :
    (∀ (s : List dockerImage) (idsForDel : List String), (∀ di ∈ s, HasSep di.ID) →
      filterLoop (K : Int) tTime true false (s.length : Int) 0 s idsForDel true =
        some (idsForDel ++ (s.drop K).map coreId)) ∧
    (∀ (s : List dockerImage) (idsForDel : List String), (∀ di ∈ s, HasSep di.ID) →
      s.length ≤ K →
      filterLoop (K : Int) tTime true false (s.length : Int) 0 s idsForDel true =
        some idsForDel) ∧
    (∀ images : ImageMap, IdsOk images → (∀ g ∈ images, DistinctTags g.2) →
      filterImages images (K : Int) tTime true false =
        some (images.flatMap (fun g => ((sortSort g.2).drop K).map coreId))) ∧
    (∀ (r : String) (v : dockerImages), IdsOk [(r, v)] →
      ∃ res, filterImages [(r, v)] (K : Int) tTime true false = some res ∧
        res.length = v.length - K) := by
  refine ⟨fun s ids hs => walk_count K hK1 hK2 tTime s ids hs, ?_, ?_, ?_⟩
  · intro s ids hs hlen
    rw [walk_count K hK1 hK2 tTime s ids hs, List.drop_eq_nil_of_le hlen]
    simp
  · intro images hids _
    rw [filterImages_ok _ _ _ _ _ hids]
    congr 1
    exact flatMap_congr_mem _ _ _ (fun g _ => by rw [selectedOf_count K hK1 hK2])
  · intro r v hv
    refine ⟨_, filterImages_ok _ _ _ _ _ hv, ?_⟩
    simp [selectedOf_count K hK1 hK2, length_sortSort]

theorem C1_count_only_keeps_newest_witness :
    filterLoop 2 defaultTime true false 3 0 [id3, id2, id1] [] true = some ["id1"] ∧
    filterImages appMap 2 defaultTime true false = some ["id1"] :=
  ⟨((C1_count_only_keeps_newest 2 defaultTime (by decide) (by norm_num)).1
      [id3, id2, id1] [] (by decide)).trans (by decide),
   ((C1_count_only_keeps_newest 2 defaultTime (by decide) (by norm_num)).2.2.1
      appMap (by decide) (by decide)).trans (by decide)⟩

/-! ## Time-only retention -/

theorem dropWhile_all_below (tTime : String) (l : List dockerImage)
    (hs : List.Pairwise Precedes l)
    (hl : ∀ di ∈ l, di.Tag = "latest" → strLt di.Tag tTime = false) :
    ∀ di ∈ l.dropWhile (fun di => !strLt di.Tag tTime), strLt di.Tag tTime = true := by
  induction l with
  | nil => simp
  | cons a rest ih =>
    have hp := List.pairwise_cons.1 hs
    simp only [List.dropWhile]
    cases ha : strLt a.Tag tTime with
    | false =>
      simpa using ih hp.2 (fun di hdi => hl di (List.mem_cons_of_mem _ hdi))
    | true =>
      simp only [Bool.not_true]
      intro di hdi
      rcases List.mem_cons.1 hdi with e | e
      · rw [e]; exact ha
      · have hna : a.Tag ≠ "latest" := by
          intro hlat
          have := hl a (List.mem_cons_self _ _) hlat
          rw [ha] at this
          exact absurd this (by simp)
        exact strLt_trans ((hp.1 di e).2 hna) ha

/-- Time-only retention away from the pinned tag: in a group with pairwise
distinct tags whose "latest" entry, if any, is not below the threshold, every
entry returned has a tag below the threshold, so none at or after it is. -/
theorem time_only_selects_below_threshold (r : String) (v : dockerImages) (tNum : Int)
    (tTime : String) (hids : IdsOk [(r, v)]) (hd : DistinctTags v)
    (hl : ∀ di ∈ v, di.Tag = "latest" → strLt di.Tag tTime = false) :
    filterImages [(r, v)] tNum tTime false true =
      some (((sortSort v).dropWhile (fun di => !strLt di.Tag tTime)).map coreId) ∧
    ∀ di ∈ (sortSort v).dropWhile (fun di => !strLt di.Tag tTime),
      strLt di.Tag tTime = true := by
  constructor
  · rw [filterImages_ok _ _ _ _ _ hids]
    simp [selectedOf, selFrom_time]
  · exact dropWhile_all_below tTime (sortSort v) (sortSort_sorted hd)
      (fun di hdi => hl di (mem_sortSort.1 hdi))

/-- C2: on the group web = [(sha256:a, "latest"), (sha256:b, "v3")] with the
threshold "v2" in time-only mode, the entry tagged "v3" is not below the
threshold, yet its identifier is returned for deletion: the "latest" entry is
walked first, compares below "v2" and clears `isContinue`. -/
theorem C2_latest_below_threshold :
    DistinctTags [⟨"sha256:a", "latest"⟩, ⟨"sha256:b", "v3"⟩] ∧
    strLt "v3" "v2" = false ∧
    filterImages webMap 0 "v2" false true = some ["a", "b"] := by
  decide

/-- C3: with the time filter enabled, whatever the count setting, every entry
whose tag is below the threshold has its core identifier in the result. -/
theorem C3_time_precedes_count (images : ImageMap) (tNum : Int) (tTime : String)
    (isTrimByNum : Bool) (hids : IdsOk images)
    (g : String × dockerImages) (hg : g ∈ images)
    (di : dockerImage) (hdi : di ∈ g.2) (hlt : strLt di.Tag tTime = true) :
    ∃ res, filterImages images tNum tTime isTrimByNum true = some res ∧ coreId di ∈ res := by
  refine ⟨_, filterImages_ok _ _ _ _ _ hids, ?_⟩
  rw [List.mem_flatMap]
  refine ⟨g, hg, List.mem_map_of_mem _ ?_⟩
  unfold selectedOf
  simp only [Bool.true_or, if_true]
  exact mem_selFrom_of_lt _ _ _ _ _ _ _ (mem_sortSort.2 hdi) hlt

theorem C3_time_precedes_count_witness :
    filterImages appMap 0 "2024-03" false true = some ["id1"] ∧
    ∃ res, filterImages appMap 2 "2024-03" true true = some res ∧ coreId id1 ∈ res :=
  ⟨by decide,
   C3_time_precedes_count appMap 2 "2024-03" true (by decide) ("app", appGroup) (by decide)
     id1 (by decide) (by decide)⟩

/-! ## The ordering rule -/

/-- C4: for a group with pairwise distinct tags the ordering step returns a
permutation of the group in which the "latest" entry, if any, stands first and
the other entries follow in strictly descending tag order; an entry with the
greater tag stands before one with the smaller tag, and every sorted permutation
of the group is this same sequence. -/
theorem C4_ordering_rule (v : dockerImages) (hd : DistinctTags v) :
    (sortSort v).Perm v ∧
    (∀ di ∈ v, di.Tag = "latest" → (sortSort v)[0]? = some di) ∧
    List.Pairwise Precedes (sortSort v) ∧
    (∀ (i j : Nat) (a b : dockerImage),
      (sortSort v)[i]? = some a → (sortSort v)[j]? = some b →
      a.Tag ≠ "latest" → b.Tag ≠ "latest" → strLt b.Tag a.Tag = true → i < j) ∧
    (∀ out : dockerImages, out.Perm v → IsSorted out → out = sortSort v) := by
  have hs := sortSort_sorted hd
  refine ⟨sortSort_perm v, ?_, hs, ?_, fun out hp ho => sortSort_unique hd hp ho⟩
  · intro di hdi hl
    have hm : di ∈ sortSort v := mem_sortSort.2 hdi
    cases hsv : sortSort v with
    | nil => rw [hsv] at hm; simp at hm
    | cons a t =>
      rw [hsv] at hm hs
      rcases List.mem_cons.1 hm with e | e
      · simp [e]
      · exact absurd hl ((List.pairwise_cons.1 hs).1 di e).1
  · intro i j a b hi hj _ hb hlt
    obtain ⟨hil, hia⟩ := List.getElem?_eq_some.1 hi
    obtain ⟨hjl, hjb⟩ := List.getElem?_eq_some.1 hj
    by_contra hij
    rcases Nat.lt_or_ge j i with h | h
    · have hp := (List.pairwise_iff_getElem.1 hs) j i hjl hil h
      rw [hia, hjb] at hp
      have e := strLt_asymm (hp.2 hb)
      rw [hlt] at e
      exact absurd e (by simp)
    · have hij2 : i = j := by omega
      subst hij2
      rw [hia] at hjb
      subst hjb
      rw [strLt_irrefl] at hlt
      exact absurd hlt (by simp)

theorem C4_ordering_rule_witness :
    DistinctTags appGroup ∧ sortSort appGroup = [id3, id2, id1] ∧
    (sortSort appGroup).Perm appGroup ∧ List.Pairwise Precedes (sortSort appGroup) :=
  ⟨by decide, by decide, (C4_ordering_rule appGroup (by decide)).1,
    (C4_ordering_rule appGroup (by decide)).2.2.1⟩

/-! ## The count boundary -/

/-- C5, as stated, fails: with `K = 2` on the three-entry group "app" the claim
selects position 0 (id3) only, while the code returns the entry at position 2
(id1) and keeps positions 0 and 1. -/
theorem C5_counterexample :
    sortSort appGroup = [id3, id2, id1] ∧
    filterImages appMap 2 defaultTime true false = some [coreId id1] ∧
    filterImages appMap 2 defaultTime true false ≠
      some (((sortSort appGroup).take (2 - 1)).map coreId) := by
  decide

/-- C5, amended: in count-only mode with `K ≥ 1`, when the sequence `s` that
`sort.Sort` left has `n > K` entries, exactly the entries at the positions
`K, ..., n-1` of `s` are appended: `n - K` identifiers, the `i`-th one the core
identifier of the entry at position `K + i`; positions `0 .. K-1`, the boundary
`K-1` included, are kept.  For a group with pairwise distinct tags this is the
result of `filterImages` on the group. -/
theorem C5_count_boundary (K : Nat) (tTime : String)
    (hK1 : 1 ≤ K) (hK2 : (K : Int) < 2 ^ 63) :
    (∀ (s : List dockerImage) (idsForDel : List String), (∀ di ∈ s, HasSep di.ID) →
      K < s.length →
      ∃ res, filterLoop (K : Int) tTime true false (s.length : Int) 0 s idsForDel true =
          some (idsForDel ++ res) ∧
        res.length = s.length - K ∧ 0 < res.length ∧
        ∀ i, i < s.length - K → res[i]? = (s[K + i]?).map coreId) ∧
    (∀ (r : String) (v : dockerImages), IdsOk [(r, v)] → DistinctTags v → K < v.length →
      ∃ res, filterImages [(r, v)] (K : Int) tTime true false = some res ∧
        res.length = v.length - K ∧ 0 < res.length ∧
        ∀ i, i < v.length - K → res[i]? = ((sortSort v)[K + i]?).map coreId) := by
  constructor
  · intro s ids hs hn
    refine ⟨(s.drop K).map coreId, walk_count K hK1 hK2 tTime s ids hs, ?_, ?_, ?_⟩
    · simp
    · simp only [List.length_map, List.length_drop]
      omega
    · intro i _
      rw [List.getElem?_map, List.getElem?_drop]
  · intro r v hids _ hn
    refine ⟨((sortSort v).drop K).map coreId, ?_, ?_, ?_, ?_⟩
    · rw [filterImages_ok _ _ _ _ _ hids]
      simp [selectedOf_count K hK1 hK2]
    · simp [length_sortSort]
    · simp only [List.length_map, List.length_drop, length_sortSort]
      omega
    · intro i _
      rw [List.getElem?_map, List.getElem?_drop]

theorem C5_count_boundary_witness :
    (∃ res, filterLoop 2 defaultTime true false 3 0 [id3, id2, id1] [] true =
        some ([] ++ res) ∧
      res.length = 3 - 2 ∧ 0 < res.length ∧
      ∀ i, i < 3 - 2 → res[i]? = ([id3, id2, id1][2 + i]?).map coreId) ∧
    ∃ res, filterImages appMap (2 : Nat) defaultTime true false = some res ∧
      res.length = appGroup.length - 2 ∧ 0 < res.length ∧
      ∀ i, i < appGroup.length - 2 → res[i]? = ((sortSort appGroup)[2 + i]?).map coreId :=
  ⟨(C5_count_boundary 2 defaultTime (by decide) (by norm_num)).1 [id3, id2, id1] []
      (by decide) (by decide),
   (C5_count_boundary 2 defaultTime (by decide) (by norm_num)).2 "app" appGroup
      (by decide) (by decide) (by decide)⟩

/-- C6, as stated, fails: on the worked example with `keepCount = 2` the result
is not empty, the entry after the boundary (id1) is returned. -/
theorem C6_counterexample :
    filterImages appMap 2 defaultTime true false ≠ some [] ∧
    ∃ res, filterImages appMap 2 defaultTime true false = some res ∧ "id1" ∈ res := by
  refine ⟨by decide, ["id1"], by decide, by decide⟩

theorem wrapInt64_pred_nonpos {tNum : Int} (h1 : -2 ^ 63 ≤ tNum) (h2 : tNum ≤ 0) :
    wrapInt64 (tNum - 1) < 0 ∨ wrapInt64 (tNum - 1) = 2 ^ 63 - 1 := by
  unfold wrapInt64
  norm_num at h1 ⊢
  omega

/-- C6, amended: in count-only mode the result for a group of `n` entries is
empty exactly when `keepCount ≤ 0` or `n ≤ keepCount`; otherwise the walk over
the sequence `s` that `sort.Sort` left appends the entries after the boundary
position `keepCount - 1` of `s`. -/
theorem C6_count_only_empty_iff (r : String) (v : dockerImages) (tNum : Int) (tTime : String)
    (hr1 : -2 ^ 63 ≤ tNum) (hr2 : tNum < 2 ^ 63) (hlen : (v.length : Int) < 2 ^ 63)
    (hids : IdsOk [(r, v)]) :
    (filterImages [(r, v)] tNum tTime true false = some [] ↔
      (tNum ≤ 0 ∨ (v.length : Int) ≤ tNum)) ∧
    (0 < tNum → tNum < (v.length : Int) →
      ∃ res, filterImages [(r, v)] tNum tTime true false = some res ∧
        res.length = v.length - tNum.toNat ∧ 0 < res.length) ∧
    (0 < tNum → ∀ (s : List dockerImage) (idsForDel : List String),
      (∀ di ∈ s, HasSep di.ID) →
      filterLoop tNum tTime true false (s.length : Int) 0 s idsForDel true =
        some (idsForDel ++ (s.drop tNum.toNat).map coreId)) := by
  have hwalk : 0 < tNum → ∀ (s : List dockerImage) (idsForDel : List String),
      (∀ di ∈ s, HasSep di.ID) →
      filterLoop tNum tTime true false (s.length : Int) 0 s idsForDel true =
        some (idsForDel ++ (s.drop tNum.toNat).map coreId) := by
    intro hp s ids hs
    have hK : tNum = ((tNum.toNat : Nat) : Int) := by omega
    have := walk_count tNum.toNat (by omega) (by rw [← hK]; exact hr2) tTime s ids hs
    rw [← hK] at this
    exact this
  by_cases hpos : tNum ≤ 0
  · refine ⟨?_, fun h => absurd hpos (by omega), hwalk⟩
    simp only [hpos, true_or, iff_true]
    rw [filterImages_ok _ _ _ _ _ hids]
    have hsel : selectedOf tNum tTime true false v = [] := by
      unfold selectedOf
      simp only [Bool.or_true, if_true]
      apply selFrom_count_none
      intro i _ hi hc
      rw [length_sortSort] at hi
      rcases wrapInt64_pred_nonpos hr1 hpos with hw | hw
      · omega
      · have h2 := hc.2
        rw [hw] at h2
        norm_num at hlen h2
        omega
    simp [hsel]
  · have hK : tNum = ((tNum.toNat : Nat) : Int) := by omega
    have hK1 : 1 ≤ tNum.toNat := by omega
    have hsel : selectedOf tNum tTime true false v = (sortSort v).drop tNum.toNat := by
      have := selectedOf_count tNum.toNat hK1 (by rw [← hK]; exact hr2) tTime v
      rw [← hK] at this
      exact this
    have hres : filterImages [(r, v)] tNum tTime true false =
        some (((sortSort v).drop tNum.toNat).map coreId) := by
      rw [filterImages_ok _ _ _ _ _ hids]
      simp [hsel]
    refine ⟨?_, ?_, hwalk⟩
    · rw [hres]
      simp only [Option.some.injEq, List.map_eq_nil_iff, List.drop_eq_nil_iff, length_sortSort,
        hpos, false_or]
      omega
    · intro _ hlt
      refine ⟨_, hres, by simp [length_sortSort], ?_⟩
      simp only [List.length_map, List.length_drop, length_sortSort]
      omega

theorem C6_count_only_empty_iff_witness :
    (filterImages appMap 3 defaultTime true false = some [] ↔
      ((3 : Int) ≤ 0 ∨ (appGroup.length : Int) ≤ 3)) ∧
    filterLoop 2 defaultTime true false 3 0 [id3, id2, id1] [] true = some ["id1"] :=
  ⟨(C6_count_only_empty_iff "app" appGroup 3 defaultTime (by norm_num) (by norm_num)
      (by norm_num [appGroup]) (by decide)).1,
   ((C6_count_only_empty_iff "app" appGroup 2 defaultTime (by norm_num) (by norm_num)
      (by norm_num [appGroup]) (by decide)).2.2 (by norm_num) [id3, id2, id1] []
      (by decide)).trans (by decide)⟩

/-! ## After the flag is cleared -/

/-- C7, as stated, fails: in time-only mode with the threshold "2024-03" the
group with tags "2024-01" and "2024-02" has both entries returned, the second one
after `isContinue` was cleared by the first. -/
theorem C7_counterexample :
    filterImages oldMap 0 "2024-03" false true = some ["id2", "id1"] ∧
    ¬ (∀ res, filterImages oldMap 0 "2024-03" false true = some res → res.length ≤ 1) := by
  refine ⟨by decide, fun h => ?_⟩
  have := h ["id2", "id1"] (by decide)
  simp at this

/-- C7, amended: once `isContinue` has been cleared every later entry of the
group is appended to the result; in time-only mode the walk over the sequence `s`
that `sort.Sort` left appends the first entry of `s` whose tag is below the
threshold and every entry after it.  For groups with pairwise distinct tags this
gives the result of `filterImages`. -/
theorem C7_cleared_flag_selects_rest (tNum : Int) (tTime : String) :
    (∀ (isTrimByNum : Bool) (vLen : Int) (idx : Nat) (rest : List dockerImage)
        (idsForDel : List String), (∀ di ∈ rest, HasSep di.ID) →
      filterLoop tNum tTime isTrimByNum true vLen idx rest idsForDel false =
        some (idsForDel ++ rest.map coreId)) ∧
    (∀ (s : List dockerImage) (idsForDel : List String), (∀ di ∈ s, HasSep di.ID) →
      filterLoop tNum tTime false true (s.length : Int) 0 s idsForDel true =
        some (idsForDel ++ (s.dropWhile (fun di => !strLt di.Tag tTime)).map coreId)) ∧
    (∀ images : ImageMap, IdsOk images → (∀ g ∈ images, DistinctTags g.2) →
      filterImages images tNum tTime false true =
        some (images.flatMap (fun g =>
          ((sortSort g.2).dropWhile (fun di => !strLt di.Tag tTime)).map coreId))) := by
  refine ⟨?_, ?_, ?_⟩
  · intro n vLen idx rest ids hr
    rw [filterLoop_ok _ _ _ _ _ _ _ _ _ hr]
    simp
  · intro s ids hs
    rw [filterLoop_ok _ _ _ _ _ _ _ _ _ hs]
    simp only [if_true, selFrom_time]
  · intro images hids _
    rw [filterImages_ok _ _ _ _ _ hids]
    congr 1
    apply flatMap_congr_mem
    intro g _
    unfold selectedOf
    simp only [Bool.true_or, if_true, selFrom_time]

theorem C7_cleared_flag_selects_rest_witness :
    filterLoop 0 "2024-03" false true 2 0
        [⟨"sha256:id2", "2024-02"⟩, ⟨"sha256:id1", "2024-01"⟩] [] true =
      some ["id2", "id1"] ∧
    filterImages oldMap 0 "2024-03" false true = some ["id2", "id1"] :=
  ⟨((C7_cleared_flag_selects_rest 0 "2024-03").2.1
      [⟨"sha256:id2", "2024-02"⟩, ⟨"sha256:id1", "2024-01"⟩] [] (by decide)).trans
      (by decide),
   ((C7_cleared_flag_selects_rest 0 "2024-03").2.2 oldMap (by decide) (by decide)).trans
      (by decide)⟩

/-! ## No retention filter -/

theorem flatMap_perm_of_perm {α β : Type} (l : List α) (f g : α → List β)
    (h : ∀ a ∈ l, (f a).Perm (g a)) : (l.flatMap f).Perm (l.flatMap g) := by
  induction l with
  | nil => exact List.Perm.refl _
  | cons a rest ih =>
    simp only [List.flatMap_cons]
    exact (h a (List.mem_cons_self _ _)).append
      (ih (fun b hb => h b (List.mem_cons_of_mem _ hb)))

theorem length_flatMap_sum {α β : Type} (l : List α) (f : α → List β) :
    (l.flatMap f).length = (l.map (fun a => (f a).length)).sum := by
  induction l with
  | nil => rfl
  | cons a rest ih => simp [List.flatMap_cons, ih]

/-- C8: with both retention filters off, `filterImages` returns the core
identifier of every entry of every group, once per entry, so the result is as
long as the total number of entries; the walk appends the identifier of every
entry of the sequence `sort.Sort` left, in the order of that sequence. -/
theorem C8_no_filter_selects_all (images : ImageMap) (tNum : Int) (tTime : String)
    (hids : IdsOk images) :
    (∃ res, filterImages images tNum tTime false false = some res ∧
      res.Perm (images.flatMap (fun g => g.2.map coreId)) ∧
      res.length = (images.map (fun g => g.2.length)).sum) ∧
    (∀ (s : List dockerImage) (idsForDel : List String), (∀ di ∈ s, HasSep di.ID) →
      filterLoop tNum tTime false false (s.length : Int) 0 s idsForDel false =
        some (idsForDel ++ s.map coreId)) := by
  constructor
  · refine ⟨_, filterImages_ok _ _ _ _ _ hids, ?_, ?_⟩
    · apply flatMap_perm_of_perm
      intro g _
      simp only [selectedOf, Bool.or_self, Bool.false_eq_true, if_false]
      exact (sortSort_perm g.2).map coreId
    · rw [length_flatMap_sum]
      congr 1
      apply List.map_congr_left
      intro g _
      simp [selectedOf, length_sortSort]
  · intro s ids hs
    rw [filterLoop_ok _ _ _ _ _ _ _ _ _ hs]
    simp

theorem C8_no_filter_selects_all_witness :
    ∃ res, filterImages appMap 0 defaultTime false false = some res ∧
      res.Perm (appMap.flatMap (fun g => g.2.map coreId)) ∧
      res.length = (appMap.map (fun g => g.2.length)).sum :=
  (C8_no_filter_selects_all appMap 0 defaultTime (by decide)).1

/-! ## Both filters -/

/-- C9: when no entry of the map has a tag below the threshold, `filterImages`
with both filters enabled returns what it returns with the count filter alone
(same `tNum`), a failure included. -/
theorem C9_combined_falls_back (images : ImageMap) (tNum : Int) (tTime tTime2 : String)
    (h : ∀ g ∈ images, ∀ di ∈ g.2, strLt di.Tag tTime = false) :
    filterImages images tNum tTime true true = filterImages images tNum tTime2 true false := by
  by_cases hids : IdsOk images
  · rw [filterImages_ok _ _ _ _ _ hids, filterImages_ok _ _ _ _ _ hids]
    congr 1
    apply flatMap_congr_mem
    intro g hg
    unfold selectedOf
    simp only [Bool.or_true, Bool.true_or, if_true]
    rw [selFrom_no_time tNum tTime tTime2 true _ _ _
      (fun di hdi => h g hg di (mem_sortSort.1 hdi))]
  · rw [filterImages_fail _ _ _ _ _ hids, filterImages_fail _ _ _ _ _ hids]

theorem C9_combined_falls_back_witness :
    filterImages appMap 2 "2024-01" true true = filterImages appMap 2 defaultTime true false ∧
    filterImages appMap 2 "2024-01" true true = some ["id1"] :=
  ⟨C9_combined_falls_back appMap 2 "2024-01" defaultTime (by decide), by decide⟩

/-! ## The map operations of the grouping loop -/

theorem mapHas_iff (m : ImageMap) (r : String) :
    mapHas m r = true ↔ r ∈ m.map Prod.fst := by
  induction m with
  | nil => simp [mapHas]
  | cons g rest ih =>
    obtain ⟨k, v⟩ := g
    simp only [mapHas, List.map_cons, List.mem_cons]
    by_cases hk : k = r
    · simp [hk]
    · have hk2 : ¬ r = k := fun e => hk e.symm
      simp [hk, hk2, ih]

theorem mapGet_mapSet (m : ImageMap) (r r2 : String) (v : dockerImages) :
    mapGet (mapSet m r v) r2 = if r2 = r then v else mapGet m r2 := by
  induction m with
  | nil =>
    by_cases h : r2 = r
    · simp [mapSet, mapGet, h]
    · have h2 : ¬ r = r2 := fun e => h e.symm
      simp [mapSet, mapGet, h, h2]
  | cons g rest ih =>
    obtain ⟨k, w⟩ := g
    simp only [mapSet]
    by_cases hk : k = r
    · subst hk
      by_cases h : r2 = k
      · simp [mapGet, h]
      · have h2 : ¬ k = r2 := fun e => h e.symm
        simp [mapGet, h, h2]
    · simp only [hk, if_false, mapGet]
      by_cases hk2 : k = r2
      · subst hk2
        simp [hk]
      · simp [hk2, ih]

theorem mapGet_of_not_has (m : ImageMap) (r : String) (h : mapHas m r = false) :
    mapGet m r = [] := by
  induction m with
  | nil => rfl
  | cons g rest ih =>
    obtain ⟨k, v⟩ := g
    simp only [mapHas] at h
    by_cases hk : k = r
    · simp [hk] at h
    · simp only [hk, if_false] at h
      simp [mapGet, hk, ih h]

theorem mapGet_mapEnsure (m : ImageMap) (r r2 : String) :
    mapGet (mapEnsure m r) r2 = mapGet m r2 := by
  unfold mapEnsure
  cases h : mapHas m r with
  | true => simp
  | false =>
    simp only [Bool.false_eq_true, if_false, mapGet_mapSet]
    by_cases h2 : r2 = r
    · subst h2
      simp [mapGet_of_not_has m r2 h]
    · simp [h2]

theorem keys_mapSet (m : ImageMap) (r : String) (v : dockerImages) :
    (mapSet m r v).map Prod.fst =
      if mapHas m r then m.map Prod.fst else m.map Prod.fst ++ [r] := by
  induction m with
  | nil => simp [mapSet, mapHas]
  | cons g rest ih =>
    obtain ⟨k, w⟩ := g
    simp only [mapSet, mapHas]
    by_cases hk : k = r
    · simp [hk]
    · simp only [hk, if_false, List.map_cons, ih]
      split <;> simp

theorem nodup_keys_mapSet (m : ImageMap) (r : String) (v : dockerImages)
    (h : (m.map Prod.fst).Nodup) : ((mapSet m r v).map Prod.fst).Nodup := by
  rw [keys_mapSet]
  cases hh : mapHas m r with
  | true => simpa using h
  | false =>
    simp only [Bool.false_eq_true, if_false]
    have hn : r ∉ m.map Prod.fst := by
      intro hm
      rw [← mapHas_iff, hh] at hm
      exact absurd hm (by simp)
    rw [List.nodup_append]
    refine ⟨h, List.nodup_singleton r, ?_⟩
    intro a ha hb
    rw [List.mem_singleton] at hb
    subst hb
    exact hn ha

theorem nodup_keys_mapEnsure (m : ImageMap) (r : String)
    (h : (m.map Prod.fst).Nodup) : ((mapEnsure m r).map Prod.fst).Nodup := by
  unfold mapEnsure
  split
  · exact h
  · exact nodup_keys_mapSet m r [] h

theorem sum_mapSet (m : ImageMap) (r : String) (v : dockerImages) :
    ((mapSet m r v).map (fun g => g.2.length)).sum + (mapGet m r).length =
      (m.map (fun g => g.2.length)).sum + v.length := by
  induction m with
  | nil => simp [mapSet, mapGet]
  | cons g rest ih =>
    obtain ⟨k, w⟩ := g
    simp only [mapSet, mapGet]
    by_cases hk : k = r
    · simp only [hk, if_true, List.map_cons, List.sum_cons]
      omega
    · simp only [hk, if_false, List.map_cons, List.sum_cons]
      omega

theorem sum_mapEnsure (m : ImageMap) (r : String) :
    ((mapEnsure m r).map (fun g => g.2.length)).sum = (m.map (fun g => g.2.length)).sum := by
  unfold mapEnsure
  cases h : mapHas m r with
  | true => simp
  | false =>
    have := sum_mapSet m r []
    rw [mapGet_of_not_has m r h] at this
    simpa using this

theorem mem_mapSet (m : ImageMap) (r : String) (v : dockerImages) (g : String × dockerImages)
    (h : g ∈ mapSet m r v) : g = (r, v) ∨ g ∈ m := by
  induction m with
  | nil => simpa [mapSet] using h
  | cons g0 rest ih =>
    obtain ⟨k, w⟩ := g0
    simp only [mapSet] at h
    by_cases hk : k = r
    · simp only [hk, if_true, List.mem_cons] at h
      rcases h with e | e
      · exact Or.inl e
      · exact Or.inr (List.mem_cons_of_mem _ e)
    · simp only [hk, if_false, List.mem_cons] at h
      rcases h with e | e
      · exact Or.inr (by simp [e])
      · rcases ih e with e2 | e2
        · exact Or.inl e2
        · exact Or.inr (List.mem_cons_of_mem _ e2)

theorem mem_mapGet (m : ImageMap) (r : String) (x : dockerImage) (h : x ∈ mapGet m r) :
    ∃ g ∈ m, x ∈ g.2 := by
  induction m with
  | nil => simp [mapGet] at h
  | cons g0 rest ih =>
    obtain ⟨k, w⟩ := g0
    simp only [mapGet] at h
    by_cases hk : k = r
    · simp only [hk, if_true] at h
      exact ⟨(k, w), List.mem_cons_self _ _, h⟩
    · simp only [hk, if_false] at h
      obtain ⟨g, hg, hx⟩ := ih h
      exact ⟨g, List.mem_cons_of_mem _ hg, hx⟩

theorem mapGet_of_mem (m : ImageMap) (h : (m.map Prod.fst).Nodup)
    (g : String × dockerImages) (hg : g ∈ m) : mapGet m g.1 = g.2 := by
  induction m with
  | nil => simp at hg
  | cons g0 rest ih =>
    obtain ⟨k, w⟩ := g0
    simp only [List.map_cons, List.nodup_cons] at h
    rcases List.mem_cons.1 hg with e | e
    · subst e
      simp [mapGet]
    · have hk : k ≠ g.1 := by
        intro hk
        apply h.1
        rw [hk]
        exact List.mem_map_of_mem Prod.fst e
      simp [mapGet, hk, ih h.2 e]

/-! ## The grouping loop -/

theorem splitChars_first (sep : Char) (l : List Char) :
    (splitChars sep l)[0]? = some (l.takeWhile (fun c => c != sep)) := by
  induction l with
  | nil => simp [splitChars]
  | cons c cs ih =>
    simp only [splitChars]
    by_cases hc : c = sep
    · simp [hc]
    · simp only [hc, if_false]
      cases h : splitChars sep cs with
      | nil => exact absurd h (splitChars_ne_nil _ _)
      | cons w ws =>
        rw [h] at ih
        simp only [List.getElem?_cons_zero, Option.some.injEq] at ih
        have hne : (c != sep) = true := by simp [hc]
        simp [List.takeWhile, hne, ih]

theorem stringsSplit_first (s : String) :
    (stringsSplit s tagSplit)[0]? = some (repoOf s) := by
  simp only [stringsSplit, List.getElem?_map, splitChars_first, repoOf, Option.map_some']

theorem addRepoTag_ok (m : ImageMap) (imageID repoTag : String) (h : HasSep repoTag) :
    addRepoTag m imageID repoTag =
      some (mapSet (mapEnsure m (repoOf repoTag)) (repoOf repoTag)
        (mapGet (mapEnsure m (repoOf repoTag)) (repoOf repoTag) ++
          [⟨imageID, tagOf repoTag⟩])) := by
  obtain ⟨w, hw⟩ := stringsSplit_second h
  have hw2 : (stringsSplit repoTag tagSplit)[1]? = some w := hw
  simp only [addRepoTag, stringsSplit_first, hw2, tagOf, Option.getD_some]

theorem entriesFor_cons (r : String) (p : String × String) (refs : List (String × String)) :
    entriesFor r (p :: refs) = entriesFor r [p] ++ entriesFor r refs := by
  unfold entriesFor
  by_cases h : repoOf p.2 = r <;> simp [List.filter_cons, h]

theorem addRepoTag_spec (m : ImageMap) (imageID repoTag : String) (h : HasSep repoTag)
    (hn : (m.map Prod.fst).Nodup) :
    ∃ m2, addRepoTag m imageID repoTag = some m2 ∧
      (∀ r, mapGet m2 r = mapGet m r ++ entriesFor r [(imageID, repoTag)]) ∧
      (m2.map Prod.fst).Nodup ∧
      (m2.map (fun g => g.2.length)).sum = (m.map (fun g => g.2.length)).sum + 1 ∧
      (∀ g ∈ m2, ∀ x ∈ g.2, x.ID = imageID ∨ ∃ g0 ∈ m, x ∈ g0.2) := by
  refine ⟨_, addRepoTag_ok m imageID repoTag h, ?_, ?_, ?_, ?_⟩
  · intro r
    rw [mapGet_mapSet, mapGet_mapEnsure]
    by_cases hr : r = repoOf repoTag
    · subst hr
      simp [entriesFor]
    · have hr2 : ¬ repoOf repoTag = r := fun e => hr e.symm
      simp [hr, mapGet_mapEnsure, entriesFor, hr2]
  · exact nodup_keys_mapSet _ _ _ (nodup_keys_mapEnsure _ _ hn)
  · have h1 := sum_mapSet (mapEnsure m (repoOf repoTag)) (repoOf repoTag)
      (mapGet (mapEnsure m (repoOf repoTag)) (repoOf repoTag) ++ [⟨imageID, tagOf repoTag⟩])
    rw [sum_mapEnsure] at h1
    simp only [List.length_append, List.length_singleton] at h1
    omega
  · intro g hg x hx
    rcases mem_mapSet _ _ _ _ hg with e | e
    · subst e
      rcases List.mem_append.1 hx with e2 | e2
      · rw [mapGet_mapEnsure] at e2
        exact Or.inr (mem_mapGet _ _ _ e2)
      · rw [List.mem_singleton] at e2
        exact Or.inl (by rw [e2])
    · unfold mapEnsure at e
      split at e
      · exact Or.inr ⟨g, e, hx⟩
      · rcases mem_mapSet _ _ _ _ e with e3 | e3
        · subst e3
          simp at hx
        · exact Or.inr ⟨g, e3, hx⟩

theorem uniformFold_spec (refs : List (String × String)) (m : ImageMap)
    (h : ∀ p ∈ refs, HasSep p.2) (hn : (m.map Prod.fst).Nodup) :
    ∃ m2, uniformFold refs m = some m2 ∧
      (∀ r, mapGet m2 r = mapGet m r ++ entriesFor r refs) ∧
      (m2.map Prod.fst).Nodup ∧
      (m2.map (fun g => g.2.length)).sum = (m.map (fun g => g.2.length)).sum + refs.length ∧
      (∀ g ∈ m2, ∀ x ∈ g.2, (∃ p ∈ refs, x.ID = p.1) ∨ ∃ g0 ∈ m, x ∈ g0.2) := by
  induction refs generalizing m with
  | nil =>
    exact ⟨m, rfl, fun r => by simp [entriesFor], hn, by simp,
      fun g hg x hx => Or.inr ⟨g, hg, hx⟩⟩
  | cons p rest ih =>
    obtain ⟨imageID, repoTag⟩ := p
    obtain ⟨m1, e1, g1, n1, s1, i1⟩ :=
      addRepoTag_spec m imageID repoTag (h _ (List.mem_cons_self _ _)) hn
    obtain ⟨m2, e2, g2, n2, s2, i2⟩ :=
      ih m1 (fun p hp => h p (List.mem_cons_of_mem _ hp)) n1
    refine ⟨m2, by simp only [uniformFold, e1, e2], ?_, n2, ?_, ?_⟩
    · intro r
      rw [g2 r, g1 r, entriesFor_cons r (imageID, repoTag) rest, List.append_assoc]
    · rw [s2, s1, List.length_cons]
      omega
    · intro g hg x hx
      rcases i2 g hg x hx with ⟨p, hp, hxp⟩ | ⟨g0, hg0, hx0⟩
      · exact Or.inl ⟨p, List.mem_cons_of_mem _ hp, hxp⟩
      · rcases i1 g0 hg0 x hx0 with e | e
        · exact Or.inl ⟨(imageID, repoTag), List.mem_cons_self _ _, e⟩
        · exact Or.inr e

theorem uniformFold_append (a b : List (String × String)) (m : ImageMap) :
    uniformFold (a ++ b) m =
      match uniformFold a m with
      | none => none
      | some m2 => uniformFold b m2 := by
  induction a generalizing m with
  | nil => simp [uniformFold]
  | cons p rest ih =>
    obtain ⟨imageID, repoTag⟩ := p
    simp only [List.cons_append, uniformFold]
    cases addRepoTag m imageID repoTag with
    | none => rfl
    | some m1 => exact ih m1

theorem tagLoop_eq_uniformFold (imageID : String) (tags : List String) (m : ImageMap) :
    tagLoop imageID tags m = uniformFold (tags.map (fun repoTag => (imageID, repoTag))) m := by
  induction tags generalizing m with
  | nil => rfl
  | cons t rest ih =>
    simp only [tagLoop, List.map_cons, uniformFold]
    cases addRepoTag m imageID t with
    | none => rfl
    | some m1 => exact ih m1

theorem groupStep_eq_uniformFold (m : ImageMap) (image : ImageSummary)
    (h : image.RepoTags ≠ []) :
    groupStep m image =
      uniformFold (image.RepoTags.map (fun repoTag => (image.ID, repoTag))) m := by
  unfold groupStep
  split
  · exact tagLoop_eq_uniformFold _ _ _
  · rename_i hlen
    cases hrt : image.RepoTags with
    | nil => exact absurd hrt h
    | cons t rest =>
      rw [hrt] at hlen
      cases rest with
      | cons t2 rest2 => exact absurd (by simp) hlen
      | nil =>
        simp only [List.getElem?_cons_zero, List.map_cons, List.map_nil, uniformFold]
        cases addRepoTag m image.ID t <;> rfl

theorem groupLoop_eq_uniformFold (imageList : List ImageSummary) (m : ImageMap)
    (h : ∀ image ∈ imageList, image.RepoTags ≠ []) :
    groupLoop imageList m = uniformFold (allRefs imageList) m := by
  induction imageList generalizing m with
  | nil => rfl
  | cons image rest ih =>
    simp only [groupLoop, allRefs, List.flatMap_cons, uniformFold_append]
    rw [groupStep_eq_uniformFold m image (h image (List.mem_cons_self _ _))]
    cases uniformFold (image.RepoTags.map (fun repoTag => (image.ID, repoTag))) m with
    | none => rfl
    | some m1 => exact ih m1 (fun im him => h im (List.mem_cons_of_mem _ him))

theorem mem_allRefs {imageList : List ImageSummary} {p : String × String} :
    p ∈ allRefs imageList ↔ ∃ image ∈ imageList, p.1 = image.ID ∧ p.2 ∈ image.RepoTags := by
  unfold allRefs
  rw [List.mem_flatMap]
  constructor
  · rintro ⟨image, him, hp⟩
    obtain ⟨t, ht, e⟩ := List.mem_map.1 hp
    subst e
    exact ⟨image, him, rfl, ht⟩
  · rintro ⟨image, him, e1, e2⟩
    refine ⟨image, him, List.mem_map.2 ⟨p.2, e2, ?_⟩⟩
    rw [← e1]

theorem length_allRefs (imageList : List ImageSummary) :
    (allRefs imageList).length = (imageList.map (fun image => image.RepoTags.length)).sum := by
  unfold allRefs
  rw [length_flatMap_sum]
  simp

/-- C10: on an inventory in which every record has a reference and every
reference has a separator, the grouping loop returns a map with distinct keys
in which the group under each key `r` lists, in scan order, the (record ID, tag)
of every (record, reference) pair whose text before the first separator is `r`;
the loop is the uniform fold of one step over all references, every entry carries
the ID of a record, and the groups together hold one entry per reference. -/
theorem C10_grouping_one_entry_per_reference (imageList : List ImageSummary)
    (h : WellFormed imageList) :
    ∃ m, groupImages imageList = some m ∧
      (∀ r, mapGet m r = entriesFor r (allRefs imageList)) ∧
      (m.map Prod.fst).Nodup ∧
      (∀ g ∈ m, g.2 = entriesFor g.1 (allRefs imageList)) ∧
      groupImages imageList = uniformFold (allRefs imageList) [] ∧
      (∀ g ∈ m, ∀ x ∈ g.2, ∃ image ∈ imageList, x.ID = image.ID) ∧
      (m.map (fun g => g.2.length)).sum = (allRefs imageList).length ∧
      (allRefs imageList).length = (imageList.map (fun image => image.RepoTags.length)).sum := by
  have heq : groupImages imageList = uniformFold (allRefs imageList) [] :=
    groupLoop_eq_uniformFold imageList [] (fun image him => (h image him).1)
  have hsep : ∀ p ∈ allRefs imageList, HasSep p.2 := by
    intro p hp
    obtain ⟨image, him, _, e2⟩ := mem_allRefs.1 hp
    exact (h image him).2 p.2 e2
  obtain ⟨m, e, hg, hn, hs, hi⟩ := uniformFold_spec (allRefs imageList) [] hsep (by simp)
  have hg2 : ∀ r, mapGet m r = entriesFor r (allRefs imageList) := by
    intro r
    rw [hg r]
    simp [mapGet]
  refine ⟨m, heq.trans e, hg2, hn, ?_, heq, ?_, ?_, length_allRefs imageList⟩
  · intro g hgm
    rw [← hg2 g.1, mapGet_of_mem m hn g hgm]
  · intro g hgm x hx
    rcases hi g hgm x hx with ⟨p, hp, hxp⟩ | ⟨g0, hg0, _⟩
    · obtain ⟨image, him, e1, _⟩ := mem_allRefs.1 hp
      exact ⟨image, him, hxp.trans e1⟩
    · simp at hg0
  · simpa using hs

theorem C10_grouping_one_entry_per_reference_witness :
    groupImages sampleInventory =
      some [("app", [⟨"sha256:x", "v1"⟩, ⟨"sha256:x", "v2"⟩]),
        ("db", [⟨"sha256:y", "latest"⟩])] ∧
    ∃ m, groupImages sampleInventory = some m ∧
      (∀ r, mapGet m r = entriesFor r (allRefs sampleInventory)) ∧
      (m.map (fun g => g.2.length)).sum = (allRefs sampleInventory).length := by
  obtain ⟨m, h1, h2, _, _, _, _, h7, _⟩ :=
    C10_grouping_one_entry_per_reference sampleInventory (by decide)
  exact ⟨by decide, m, h1, h2, h7⟩

/-! ## Malformed references -/

theorem addRepoTag_fail (m : ImageMap) (imageID repoTag : String) (h : ¬ HasSep repoTag) :
    addRepoTag m imageID repoTag = none := by
  have hn : (stringsSplit repoTag tagSplit)[1]? = none := stringsSplit_second_none h
  simp only [addRepoTag, stringsSplit_first, hn]

theorem addRepoTag_some (m : ImageMap) (imageID repoTag : String) (h : HasSep repoTag) :
    ∃ m2, addRepoTag m imageID repoTag = some m2 :=
  ⟨_, addRepoTag_ok m imageID repoTag h⟩

theorem uniformFold_some (refs : List (String × String)) (m : ImageMap)
    (h : ∀ p ∈ refs, HasSep p.2) : ∃ m2, uniformFold refs m = some m2 := by
  induction refs generalizing m with
  | nil => exact ⟨m, rfl⟩
  | cons p rest ih =>
    obtain ⟨imageID, repoTag⟩ := p
    obtain ⟨m1, e1⟩ := addRepoTag_some m imageID repoTag (h _ (List.mem_cons_self _ _))
    obtain ⟨m2, e2⟩ := ih m1 (fun q hq => h q (List.mem_cons_of_mem _ hq))
    exact ⟨m2, by simp only [uniformFold, e1, e2]⟩

theorem tagLoop_fail (imageID : String) (tags : List String) (m : ImageMap)
    (h : ∃ t ∈ tags, ¬ HasSep t) : tagLoop imageID tags m = none := by
  induction tags generalizing m with
  | nil => simp at h
  | cons t rest ih =>
    by_cases ht : HasSep t
    · obtain ⟨m1, e1⟩ := addRepoTag_some m imageID t ht
      have hr : ∃ u ∈ rest, ¬ HasSep u := by
        obtain ⟨u, hu, hn⟩ := h
        rcases List.mem_cons.1 hu with e | e
        · subst e
          exact absurd ht hn
        · exact ⟨u, e, hn⟩
      simp only [tagLoop, e1, ih m1 hr]
    · simp only [tagLoop, addRepoTag_fail m imageID t ht]

theorem groupStep_fail (m : ImageMap) (image : ImageSummary)
    (h : image.RepoTags = [] ∨ ∃ t ∈ image.RepoTags, ¬ HasSep t) :
    groupStep m image = none := by
  unfold groupStep
  split
  · rename_i hlen
    rcases h with h | h
    · rw [h] at hlen
      simp at hlen
    · exact tagLoop_fail _ _ _ h
  · rename_i hlen
    cases hrt : image.RepoTags with
    | nil => simp
    | cons t rest =>
      rw [hrt] at hlen h
      cases rest with
      | cons t2 rest2 => exact absurd (by simp) hlen
      | nil =>
        rcases h with h | ⟨u, hu, hn⟩
        · simp at h
        · rw [List.mem_singleton] at hu
          subst hu
          simp only [List.getElem?_cons_zero, addRepoTag_fail m image.ID u hn]

theorem groupStep_some (m : ImageMap) (image : ImageSummary)
    (h1 : image.RepoTags ≠ []) (h2 : ∀ t ∈ image.RepoTags, HasSep t) :
    ∃ m2, groupStep m image = some m2 := by
  rw [groupStep_eq_uniformFold m image h1]
  apply uniformFold_some
  intro p hp
  obtain ⟨t, ht, e⟩ := List.mem_map.1 hp
  subst e
  exact h2 t ht

theorem groupLoop_fail (imageList : List ImageSummary) (m : ImageMap)
    (h : ¬ WellFormed imageList) : groupLoop imageList m = none := by
  induction imageList generalizing m with
  | nil => exact absurd (fun image him => by simp at him) h
  | cons image rest ih =>
    by_cases hi : image.RepoTags ≠ [] ∧ ∀ t ∈ image.RepoTags, HasSep t
    · obtain ⟨m1, e1⟩ := groupStep_some m image hi.1 hi.2
      have hr : ¬ WellFormed rest := by
        intro hw
        apply h
        intro im him
        rcases List.mem_cons.1 him with e | e
        · subst e
          exact hi
        · exact hw im e
      simp only [groupLoop, e1, ih m1 hr]
    · have hb : image.RepoTags = [] ∨ ∃ t ∈ image.RepoTags, ¬ HasSep t := by
        by_contra hc
        apply hi
        constructor
        · exact fun e => hc (Or.inl e)
        · intro t ht
          by_contra hn
          exact hc (Or.inr ⟨t, ht, hn⟩)
      simp only [groupLoop, groupStep_fail m image hb]

theorem groupLoop_some (imageList : List ImageSummary) (m : ImageMap)
    (h : WellFormed imageList) : ∃ m2, groupLoop imageList m = some m2 := by
  rw [groupLoop_eq_uniformFold imageList m (fun image him => (h image him).1)]
  apply uniformFold_some
  intro p hp
  obtain ⟨image, him, _, e2⟩ := mem_allRefs.1 hp
  exact (h image him).2 p.2 e2

/-- C11: the grouping loop fails exactly when some record has a reference
without a separator or no reference at all, and returns a map otherwise. -/
theorem C11_malformed_reference_is_fatal (imageList : List ImageSummary) :
    (groupImages imageList = none ↔
      ∃ image ∈ imageList, image.RepoTags = [] ∨ ∃ t ∈ image.RepoTags, ¬ HasSep t) ∧
    ((∃ m, groupImages imageList = some m) ↔
      ∀ image ∈ imageList, image.RepoTags ≠ [] ∧ ∀ t ∈ image.RepoTags, HasSep t) := by
  have hbad : (¬ WellFormed imageList) ↔
      ∃ image ∈ imageList, image.RepoTags = [] ∨ ∃ t ∈ image.RepoTags, ¬ HasSep t := by
    unfold WellFormed
    constructor
    · intro h
      by_contra hc
      apply h
      intro image him
      constructor
      · exact fun e => hc ⟨image, him, Or.inl e⟩
      · intro t ht
        by_contra hn
        exact hc ⟨image, him, Or.inr ⟨t, ht, hn⟩⟩
    · rintro ⟨image, him, hb⟩ hw
      rcases hb with e | ⟨t, ht, hn⟩
      · exact (hw image him).1 e
      · exact hn ((hw image him).2 t ht)
  by_cases hw : WellFormed imageList
  · obtain ⟨m, e⟩ := groupLoop_some imageList [] hw
    have e2 : groupImages imageList = some m := e
    constructor
    · rw [e2, ← hbad]
      simp [hw]
    · exact ⟨fun _ => hw, fun _ => ⟨m, e2⟩⟩
  · have e : groupImages imageList = none := groupLoop_fail imageList [] hw
    constructor
    · rw [e, ← hbad]
      simp [hw]
    · rw [e]
      constructor
      · rintro ⟨m, hm⟩
        simp at hm
      · intro h
        exact absurd h hw

theorem C11_malformed_reference_is_fatal_witness :
    groupImages [⟨"sha256:x", ["app:v1"]⟩, ⟨"sha256:y", ["db"]⟩] = none ∧
    groupImages [⟨"sha256:x", ["app:v1"]⟩, ⟨"sha256:y", []⟩] = none :=
  ⟨(C11_malformed_reference_is_fatal _).1.2
      ⟨⟨"sha256:y", ["db"]⟩, by decide, Or.inr ⟨"db", by decide, by decide⟩⟩,
   (C11_malformed_reference_is_fatal _).1.2
      ⟨⟨"sha256:y", []⟩, by decide, Or.inl rfl⟩⟩

/-! ## Independence of the groups -/

theorem idsOk_append (a b : ImageMap) : IdsOk (a ++ b) ↔ IdsOk a ∧ IdsOk b := by
  unfold IdsOk
  constructor
  · intro h
    exact ⟨fun g hg => h g (List.mem_append_left _ hg),
      fun g hg => h g (List.mem_append_right _ hg)⟩
  · rintro ⟨ha, hb⟩ g hg
    rcases List.mem_append.1 hg with e | e
    · exact ha g e
    · exact hb g e

theorem idsOk_perm {a b : ImageMap} (h : a.Perm b) : IdsOk a ↔ IdsOk b := by
  unfold IdsOk
  constructor
  · intro ha g hg
    exact ha g (h.mem_iff.2 hg)
  · intro hb g hg
    exact hb g (h.mem_iff.1 hg)

theorem filterImages_append (tNum : Int) (tTime : String) (n t : Bool) (a b : ImageMap) :
    filterImages (a ++ b) tNum tTime n t =
      concatResults [filterImages a tNum tTime n t, filterImages b tNum tTime n t] := by
  by_cases ha : IdsOk a
  · by_cases hb : IdsOk b
    · rw [filterImages_ok _ _ _ _ _ ((idsOk_append a b).2 ⟨ha, hb⟩),
        filterImages_ok _ _ _ _ _ ha, filterImages_ok _ _ _ _ _ hb]
      simp [concatResults]
    · rw [filterImages_fail _ _ _ _ _ (fun h => hb ((idsOk_append a b).1 h).2),
        filterImages_ok _ _ _ _ _ ha, filterImages_fail _ _ _ _ _ hb]
      simp [concatResults]
  · rw [filterImages_fail _ _ _ _ _ (fun h => ha ((idsOk_append a b).1 h).1),
      filterImages_fail _ _ _ _ _ ha]
    simp [concatResults]

theorem filterImages_nil (tNum : Int) (tTime : String) (n t : Bool) :
    filterImages [] tNum tTime n t = some [] := rfl

/-- C12: the result of `filterImages` is the concatenation, in visiting order, of
its results on each group alone (a failure on one group failing the whole); two
visiting orders of the same map fail together and otherwise give the same
identifiers up to order; and around any group the result splits into the results
of the groups before it, of the group itself and of the groups after it. -/
theorem C12_groups_are_independent (images : ImageMap) (tNum : Int) (tTime : String)
    (isTrimByNum isTrimByTime : Bool) :
    filterImages images tNum tTime isTrimByNum isTrimByTime =
      concatResults (images.map
        (fun g => filterImages [g] tNum tTime isTrimByNum isTrimByTime)) ∧
    (∀ images2 : ImageMap, images.Perm images2 →
      (filterImages images tNum tTime isTrimByNum isTrimByTime = none ↔
        filterImages images2 tNum tTime isTrimByNum isTrimByTime = none) ∧
      ∀ res res2, filterImages images tNum tTime isTrimByNum isTrimByTime = some res →
        filterImages images2 tNum tTime isTrimByNum isTrimByTime = some res2 →
        res.Perm res2) ∧
    (∀ (before after : ImageMap) (g : String × dockerImages),
      images = before ++ g :: after →
      filterImages images tNum tTime isTrimByNum isTrimByTime =
        concatResults [filterImages before tNum tTime isTrimByNum isTrimByTime,
          filterImages [g] tNum tTime isTrimByNum isTrimByTime,
          filterImages after tNum tTime isTrimByNum isTrimByTime]) := by
  refine ⟨?_, ?_, ?_⟩
  · induction images with
    | nil => rfl
    | cons g rest ih =>
      have h := filterImages_append tNum tTime isTrimByNum isTrimByTime [g] rest
      simp only [List.singleton_append] at h
      rw [h, List.map_cons, ih]
      cases filterImages [g] tNum tTime isTrimByNum isTrimByTime with
      | none => rfl
      | some x =>
        simp only [concatResults]
        cases concatResults (rest.map
          (fun g => filterImages [g] tNum tTime isTrimByNum isTrimByTime)) with
        | none => rfl
        | some y => simp [concatResults]
  · intro images2 hp
    by_cases h1 : IdsOk images
    · have h2 : IdsOk images2 := (idsOk_perm hp).1 h1
      rw [filterImages_ok _ _ _ _ _ h1, filterImages_ok _ _ _ _ _ h2]
      refine ⟨by simp, ?_⟩
      intro res res2 e1 e2
      simp only [Option.some.injEq] at e1 e2
      rw [← e1, ← e2]
      exact List.Perm.flatMap_right _ hp
    · have h2 : ¬ IdsOk images2 := fun h => h1 ((idsOk_perm hp).2 h)
      rw [filterImages_fail _ _ _ _ _ h1, filterImages_fail _ _ _ _ _ h2]
      refine ⟨by simp, ?_⟩
      intro res res2 e1
      simp at e1
  · intro before after g e
    subst e
    rw [filterImages_append]
    have h := filterImages_append tNum tTime isTrimByNum isTrimByTime [g] after
    simp only [List.singleton_append] at h
    rw [h]
    cases filterImages before tNum tTime isTrimByNum isTrimByTime with
    | none => rfl
    | some x =>
      cases filterImages [g] tNum tTime isTrimByNum isTrimByTime with
      | none => rfl
      | some y =>
        cases filterImages after tNum tTime isTrimByNum isTrimByTime with
        | none => rfl
        | some z => simp [concatResults]

theorem C12_groups_are_independent_witness :
    filterImages (appMap ++ webMap) 1 defaultTime true false = some ["id2", "id1", "b"] ∧
    filterImages (webMap ++ appMap) 1 defaultTime true false = some ["b", "id2", "id1"] ∧
    List.Perm ["id2", "id1", "b"] ["b", "id2", "id1"] :=
  ⟨by decide, by decide,
    ((C12_groups_are_independent (appMap ++ webMap) 1 defaultTime true false).2.1
      (webMap ++ appMap) (by decide)).2 _ _ (by decide) (by decide)⟩

/-! ## Repeated identifiers -/

theorem selFrom_sublist (tNum : Int) (tTime : String) (n t : Bool) (vLen : Int)
    (l : List dockerImage) (idx : Nat) :
    (selFrom tNum tTime n t vLen idx l).Sublist l := by
  induction l generalizing idx with
  | nil => simp [selFrom]
  | cons di rest ih =>
    simp only [selFrom]
    split
    · exact List.Sublist.refl _
    · split
      · exact List.sublist_cons_self _ _
      · exact (ih (idx + 1)).trans (List.sublist_cons_self _ _)

theorem selectedOf_sublist (tNum : Int) (tTime : String) (n t : Bool) (v : dockerImages) :
    (selectedOf tNum tTime n t v).Sublist (sortSort v) := by
  unfold selectedOf
  split
  · exact selFrom_sublist _ _ _ _ _ _ _
  · exact List.Sublist.refl _

/-- C13, as stated, fails: the group built from the record "sha256:x" with the
references "app:v1" and "app:v2" holds two entries with the same identifier, and
in time-only mode with the threshold "v3" the result lists "x" twice. -/
theorem C13_counterexample :
    groupImages twinInventory = some twinMap ∧
    filterImages twinMap 0 "v3" false true = some ["x", "x"] ∧
    ¬ (∀ res, filterImages twinMap 0 "v3" false true = some res → res.Nodup) := by
  refine ⟨by decide, by decide, fun h => ?_⟩
  have := h ["x", "x"] (by decide)
  simp at this

/-- C13, amended: for a single group whose entries have pairwise distinct core
identifiers, the list `filterImages` returns contains no identifier twice,
whatever the filter setting. -/
theorem C13_distinct_ids_no_repeat (r : String) (v : dockerImages) (tNum : Int)
    (tTime : String) (isTrimByNum isTrimByTime : Bool) (hids : IdsOk [(r, v)])
    (hd : (v.map coreId).Nodup) :
    ∃ res, filterImages [(r, v)] tNum tTime isTrimByNum isTrimByTime = some res ∧
      res.Nodup := by
  refine ⟨_, filterImages_ok _ _ _ _ _ hids, ?_⟩
  simp only [List.flatMap_cons, List.flatMap_nil, List.append_nil]
  have h1 : ((sortSort v).map coreId).Nodup :=
    (((sortSort_perm v).map coreId).nodup_iff).2 hd
  exact List.Nodup.sublist ((selectedOf_sublist _ _ _ _ v).map coreId) h1

theorem C13_distinct_ids_no_repeat_witness :
    ∃ res, filterImages appMap 1 "2024-03" true true = some res ∧ res.Nodup :=
  C13_distinct_ids_no_repeat "app" appGroup 1 "2024-03" true true (by decide) (by decide)

/-! ## The cleaning loop -/

theorem stringInArray_iff (arr : List String) (str : String) :
    stringInArray arr str = true ↔ str ∈ arr := by
  induction arr with
  | nil => simp [stringInArray]
  | cons v rest ih =>
    simp only [stringInArray, List.mem_cons]
    by_cases h : v = str
    · simp [h]
    · have h2 : ¬ str = v := fun e => h e.symm
      simp [h, h2, ih]

theorem mem_dedupFirst (l : List String) (x : String) : x ∈ dedupFirst l ↔ x ∈ l := by
  induction l with
  | nil => simp [dedupFirst]
  | cons a rest ih =>
    simp only [dedupFirst, List.mem_cons, List.mem_filter, ih, decide_eq_true_eq]
    by_cases h : x = a
    · simp [h]
    · simp [h]

theorem nodup_dedupFirst (l : List String) : (dedupFirst l).Nodup := by
  induction l with
  | nil => simp [dedupFirst]
  | cons a rest ih =>
    simp only [dedupFirst, List.nodup_cons, List.mem_filter, decide_eq_true_eq]
    exact ⟨fun h => h.2 rfl, ih.filter _⟩

theorem newIds_eq_filter (l seen : List String) :
    newIds seen l = (dedupFirst l).filter (fun y => decide (y ∉ seen)) := by
  induction l generalizing seen with
  | nil => simp [newIds, dedupFirst]
  | cons x xs ih =>
    simp only [newIds, dedupFirst]
    by_cases hx : x ∈ seen
    · simp only [hx, if_true, List.filter_cons, not_true_eq_false, decide_False,
        Bool.false_eq_true, if_false, List.filter_filter, ih]
      apply List.filter_congr
      intro y _
      by_cases hy : y ∈ seen
      · simp [hy]
      · have hne : y ≠ x := fun e => hy (e ▸ hx)
        simp [hy, hne]
    · simp only [hx, if_false, List.filter_cons, not_false_eq_true, decide_True, if_true,
        List.filter_filter, ih]
      congr 1
      apply List.filter_congr
      intro y _
      by_cases hy : y ∈ seen
      · simp [hy]
      · by_cases hne : y = x
        · simp [hne]
        · simp [hy, hne]

theorem newIds_nil (l : List String) : newIds [] l = dedupFirst l := by
  rw [newIds_eq_filter]
  simp

theorem removeCalls_force (f : List String → String → Bool) (l d : List String) :
    removeCalls (cleanLoop f true l d) = newIds d l := by
  induction l generalizing d with
  | nil => rfl
  | cons x xs ih =>
    simp only [cleanLoop, newIds, Bool.true_and]
    by_cases hx : x ∈ d
    · have h1 : stringInArray d x = true := (stringInArray_iff d x).2 hx
      simp only [h1, if_true, hx, removeCalls, ih]
    · have h1 : stringInArray d x = false := by
        cases h : stringInArray d x with
        | false => rfl
        | true => exact absurd ((stringInArray_iff d x).1 h) hx
      simp only [h1, Bool.false_eq_true, if_false, hx, removeCalls, ih]

theorem removeCalls_plain (f : List String → String → Bool) (l d : List String) :
    removeCalls (cleanLoop f false l d) = l := by
  induction l generalizing d with
  | nil => rfl
  | cons x xs ih => simp [cleanLoop, removeCalls, ih]

theorem length_cleanLoop (f : List String → String → Bool) (isForce : Bool)
    (l d : List String) : (cleanLoop f isForce l d).length = l.length := by
  induction l generalizing d with
  | nil => rfl
  | cons x xs ih =>
    simp only [cleanLoop]
    split <;> simp [ih]

theorem cleanLoop_force_at (f : List String → String → Bool) (pre : List String)
    (id : String) (post d : List String) :
    (cleanLoop f true (pre ++ id :: post) d)[pre.length]? =
      some (if id ∈ d ∨ id ∈ pre then Event.skip id
        else Event.remove id true (f (d ++ newIds d pre) id)) := by
  induction pre generalizing d with
  | nil =>
    simp only [List.nil_append, cleanLoop, Bool.true_and, List.length_nil, newIds,
      List.append_nil, List.not_mem_nil, or_false]
    by_cases hx : id ∈ d
    · have h1 : stringInArray d id = true := (stringInArray_iff d id).2 hx
      simp [h1, hx]
    · have h1 : stringInArray d id = false := by
        cases h : stringInArray d id with
        | false => rfl
        | true => exact absurd ((stringInArray_iff d id).1 h) hx
      simp [h1, hx]
  | cons p ps ih =>
    simp only [List.cons_append, cleanLoop, Bool.true_and, List.length_cons, newIds]
    by_cases hp : p ∈ d
    · have h1 : stringInArray d p = true := (stringInArray_iff d p).2 hp
      simp only [h1, if_true, hp, List.getElem?_cons_succ]
      have hiff : (id ∈ d ∨ id ∈ ps) ↔ (id ∈ d ∨ id ∈ p :: ps) := by
        simp only [List.mem_cons]
        constructor
        · rintro (h | h)
          · exact Or.inl h
          · exact Or.inr (Or.inr h)
        · rintro (h | h | h)
          · exact Or.inl h
          · exact Or.inl (h ▸ hp)
          · exact Or.inr h
      have e := ih d
      simp only [hiff] at e
      exact e
    · have h1 : stringInArray d p = false := by
        cases h : stringInArray d p with
        | false => rfl
        | true => exact absurd ((stringInArray_iff d p).1 h) hp
      simp only [h1, Bool.false_eq_true, if_false, hp, List.getElem?_cons_succ]
      have hiff : (id ∈ d ++ [p] ∨ id ∈ ps) ↔ (id ∈ d ∨ id ∈ p :: ps) := by
        simp only [List.mem_append, List.mem_cons, List.not_mem_nil, or_false]
        constructor
        · rintro ((h | h) | h)
          · exact Or.inl h
          · exact Or.inr (Or.inl h)
          · exact Or.inr (Or.inr h)
        · rintro (h | h | h)
          · exact Or.inl (Or.inl h)
          · exact Or.inl (Or.inr h)
          · exact Or.inr h
      have e := ih (d ++ [p])
      simp only [hiff, List.append_assoc, List.singleton_append] at e
      exact e

theorem cleanLoop_plain_at (f : List String → String → Bool) (pre : List String)
    (id : String) (post d : List String) :
    (cleanLoop f false (pre ++ id :: post) d)[pre.length]? =
      some (Event.remove id false (f (d ++ pre) id)) := by
  induction pre generalizing d with
  | nil => simp [cleanLoop]
  | cons p ps ih =>
    simp only [List.cons_append, cleanLoop, Bool.false_and, Bool.false_eq_true, if_false,
      List.length_cons, List.getElem?_cons_succ]
    have e := ih (d ++ [p])
    simp only [List.append_assoc, List.singleton_append] at e
    exact e

/-- C14: in force mode `cli.ImageRemove` is called for the input list with every
later duplicate removed, whatever the outcome of the earlier calls, and each
later occurrence is reported as "skip"; without force it is called for every
element of the list, duplicates included; in both modes every element of the list
is handled, a failed removal not stopping the loop. -/
theorem C14_force_skips_processed (ImageRemove : List String → String → Bool)
    (imageIds : List String) :
    removeCalls (cleanImages ImageRemove imageIds true) = dedupFirst imageIds ∧
    (dedupFirst imageIds).Nodup ∧
    (∀ id, id ∈ dedupFirst imageIds ↔ id ∈ imageIds) ∧
    removeCalls (cleanImages ImageRemove imageIds false) = imageIds ∧
    (∀ isForce, (cleanImages ImageRemove imageIds isForce).length = imageIds.length) ∧
    (∀ pre id post, imageIds = pre ++ id :: post →
      (cleanImages ImageRemove imageIds true)[pre.length]? =
        some (if id ∈ pre then Event.skip id
          else Event.remove id true (ImageRemove (dedupFirst pre) id))) ∧
    (∀ pre id post, imageIds = pre ++ id :: post →
      (cleanImages ImageRemove imageIds false)[pre.length]? =
        some (Event.remove id false (ImageRemove pre id))) := by
  refine ⟨?_, nodup_dedupFirst _, fun id => mem_dedupFirst _ id, ?_, ?_, ?_, ?_⟩
  · unfold cleanImages
    rw [removeCalls_force, newIds_nil]
  · exact removeCalls_plain _ _ _
  · intro isForce
    exact length_cleanLoop _ _ _ _
  · intro pre id post e
    subst e
    unfold cleanImages
    rw [cleanLoop_force_at]
    simp [newIds_nil]
  · intro pre id post e
    subst e
    unfold cleanImages
    rw [cleanLoop_plain_at]
    simp

theorem C14_force_skips_processed_witness :
    cleanImages (fun _ id => decide (id ≠ "a")) ["a", "b", "a", "b"] true =
      [Event.remove "a" true false, Event.remove "b" true true,
        Event.skip "a", Event.skip "b"] ∧
    (cleanImages (fun _ id => decide (id ≠ "a")) ["a", "b", "a", "b"] true)[2]? =
      some (if "a" ∈ ["a", "b"] then Event.skip "a"
        else Event.remove "a" true (decide ("a" ≠ "a"))) :=
  ⟨by decide,
    (C14_force_skips_processed (fun _ id => decide (id ≠ "a")) ["a", "b", "a", "b"]).2.2.2.2.2.1
      ["a", "b"] "a" ["b"] rfl⟩

/-! ## The orchestrator -/

theorem prune_not_mem_cleanLoop (f : List String → String → Bool) (isForce : Bool)
    (l d : List String) (ok : Bool) : Event.prune ok ∉ cleanLoop f isForce l d := by
  induction l generalizing d with
  | nil => simp [cleanLoop]
  | cons x xs ih =>
    simp only [cleanLoop]
    split
    · simp [ih]
    · simp [ih]

theorem allDefault_iff (tNum : Int) (tTime tName : String) :
    (!(tName != defaultName) && !(tNum != defaultNum) && !(tTime != defaultTime)) = true ↔
      (tNum = 0 ∧ tTime = "cyvan" ∧ tName = "cyvan") := by
  simp only [defaultName, defaultNum, defaultTime, Bool.and_eq_true, Bool.not_eq_true',
    bne_eq_false_iff_eq]
  constructor
  · rintro ⟨⟨h1, h2⟩, h3⟩
    exact ⟨h2, h3, h1⟩
  · rintro ⟨h1, h2, h3⟩
    exact ⟨⟨h3, h1⟩, h2⟩

theorem trimImages_default (d : Daemon) (tNum : Int) (tTime tName : String) (isForce : Bool)
    (h : tNum = 0 ∧ tTime = "cyvan" ∧ tName = "cyvan") :
    trimImages d tNum tTime tName isForce = [Event.prune d.ImagesPrune] := by
  unfold trimImages
  simp only [(allDefault_iff tNum tTime tName).2 h, if_true]

theorem trimImages_filtered (d : Daemon) (tNum : Int) (tTime tName : String) (isForce : Bool)
    (h : ¬ (tNum = 0 ∧ tTime = "cyvan" ∧ tName = "cyvan")) :
    trimImages d tNum tTime tName isForce =
      Event.group (tName != defaultName) tName ::
        match groupImages (d.ImageList (tName != defaultName) tName) with
        | none => [Event.panic]
        | some images =>
          Event.select tNum tTime (tNum != defaultNum) (tTime != defaultTime) ::
            match filterImages images tNum tTime (tNum != defaultNum)
                (tTime != defaultTime) with
            | none => [Event.panic]
            | some idsForDel =>
              Event.clean idsForDel isForce ::
                cleanImages d.ImageRemove idsForDel isForce := by
  have hc : (!(tName != defaultName) && !(tNum != defaultNum) && !(tTime != defaultTime))
      = false := by
    cases hb : (!(tName != defaultName) && !(tNum != defaultNum) && !(tTime != defaultTime)) with
    | false => rfl
    | true => exact absurd ((allDefault_iff tNum tTime tName).1 hb) h
  unfold trimImages
  simp only [hc, Bool.false_eq_true, if_false]

/-- C15, as stated, fails: with `tNum = 2` (not the all-default case) on an
inventory holding the reference "db", grouping panics and the run ends there:
neither selection nor cleaning runs. -/
theorem C15_counterexample :
    ¬ ((2 : Int) = 0 ∧ "cyvan" = "cyvan" ∧ "cyvan" = "cyvan") ∧
    trimImages brokenDaemon 2 "cyvan" "cyvan" false =
      [Event.group false "cyvan", Event.panic] ∧
    Event.select 2 "cyvan" true false ∉ trimImages brokenDaemon 2 "cyvan" "cyvan" false ∧
    ¬ (∃ ids, Event.clean ids false ∈ trimImages brokenDaemon 2 "cyvan" "cyvan" false) := by
  refine ⟨by decide, by decide, by decide, ?_⟩
  rintro ⟨ids, h⟩
  have e : trimImages brokenDaemon 2 "cyvan" "cyvan" false =
      [Event.group false "cyvan", Event.panic] := by decide
  rw [e] at h
  simp at h

/-- C15, amended: the run issues the prune call exactly when `tNum = 0`,
`tTime = "cyvan"` and `tName = "cyvan"`, and then does nothing else; in every
other case it enters grouping and never issues the prune call, goes on to
selection when grouping returns a map and to cleaning when selection returns a
list, and ends with a panic when grouping or selection fails; the force flag does
not enter the decision. -/
theorem C15_mode_decision (d : Daemon) (tNum : Int) (tTime tName : String) (isForce : Bool) :
    ((∃ ok, Event.prune ok ∈ trimImages d tNum tTime tName isForce) ↔
      (tNum = 0 ∧ tTime = "cyvan" ∧ tName = "cyvan")) ∧
    ((tNum = 0 ∧ tTime = "cyvan" ∧ tName = "cyvan") →
      trimImages d tNum tTime tName isForce = [Event.prune d.ImagesPrune]) ∧
    (¬ (tNum = 0 ∧ tTime = "cyvan" ∧ tName = "cyvan") →
      (∃ rest, trimImages d tNum tTime tName isForce =
          Event.group (tName != defaultName) tName :: rest) ∧
      (∀ images, groupImages (d.ImageList (tName != defaultName) tName) = some images →
        Event.select tNum tTime (tNum != defaultNum) (tTime != defaultTime) ∈
          trimImages d tNum tTime tName isForce ∧
        ∀ idsForDel, filterImages images tNum tTime (tNum != defaultNum)
            (tTime != defaultTime) = some idsForDel →
          trimImages d tNum tTime tName isForce =
            Event.group (tName != defaultName) tName ::
              Event.select tNum tTime (tNum != defaultNum) (tTime != defaultTime) ::
              Event.clean idsForDel isForce ::
              cleanImages d.ImageRemove idsForDel isForce) ∧
      (groupImages (d.ImageList (tName != defaultName) tName) = none →
        trimImages d tNum tTime tName isForce =
          [Event.group (tName != defaultName) tName, Event.panic]) ∧
      (∀ images, groupImages (d.ImageList (tName != defaultName) tName) = some images →
        filterImages images tNum tTime (tNum != defaultNum) (tTime != defaultTime) = none →
        trimImages d tNum tTime tName isForce =
          [Event.group (tName != defaultName) tName,
            Event.select tNum tTime (tNum != defaultNum) (tTime != defaultTime),
            Event.panic])) ∧
    ((∃ ok, Event.prune ok ∈ trimImages d tNum tTime tName true) ↔
      (∃ ok, Event.prune ok ∈ trimImages d tNum tTime tName false)) := by
  have key : ∀ force : Bool, (∃ ok, Event.prune ok ∈ trimImages d tNum tTime tName force) ↔
      (tNum = 0 ∧ tTime = "cyvan" ∧ tName = "cyvan") := by
    intro force
    by_cases h : tNum = 0 ∧ tTime = "cyvan" ∧ tName = "cyvan"
    · refine ⟨fun _ => h, fun _ => ⟨d.ImagesPrune, ?_⟩⟩
      rw [trimImages_default d tNum tTime tName force h]
      simp
    · refine ⟨?_, fun hh => absurd hh h⟩
      rintro ⟨ok, hm⟩
      exfalso
      rw [trimImages_filtered d tNum tTime tName force h] at hm
      cases hg : groupImages (d.ImageList (tName != defaultName) tName) with
      | none => simp [hg] at hm
      | some images =>
        cases hf : filterImages images tNum tTime (tNum != defaultNum)
            (tTime != defaultTime) with
        | none => simp [hg, hf] at hm
        | some ids =>
          simp only [hg, hf, List.mem_cons, reduceCtorEq, false_or] at hm
          exact prune_not_mem_cleanLoop _ _ _ _ _ hm
  refine ⟨key isForce, trimImages_default d tNum tTime tName isForce, ?_,
    (key true).trans (key false).symm⟩
  intro h
  refine ⟨⟨_, trimImages_filtered d tNum tTime tName isForce h⟩, ?_, ?_, ?_⟩
  · intro images hg
    rw [trimImages_filtered d tNum tTime tName isForce h]
    simp only [hg]
    refine ⟨by simp, ?_⟩
    intro ids hf
    simp only [hf]
  · intro hg
    rw [trimImages_filtered d tNum tTime tName isForce h]
    simp only [hg]
  · intro images hg hf
    rw [trimImages_filtered d tNum tTime tName isForce h]
    simp only [hg, hf]

theorem C15_mode_decision_witness :
    trimImages appDaemon 0 "cyvan" "cyvan" true = [Event.prune true] ∧
    trimImages appDaemon 2 "cyvan" "cyvan" false =
      [Event.group false "cyvan", Event.select 2 "cyvan" true false,
        Event.clean ["id1"] false, Event.remove "id1" false true] ∧
    trimImages brokenDaemon 1 "cyvan" "cyvan" true =
      [Event.group ("cyvan" != defaultName) "cyvan", Event.panic] :=
  ⟨(C15_mode_decision appDaemon 0 "cyvan" "cyvan" true).2.1 ⟨rfl, rfl, rfl⟩, by decide,
   ((C15_mode_decision brokenDaemon 1 "cyvan" "cyvan" true).2.2.1 (by decide)).2.2.1
      (by decide)⟩

/-! ## Force and the filters -/

/-- The force flag does not enter the selection: the list handed to
`cleanImages` is the same with and without it. -/
theorem force_keeps_selection (d : Daemon) (tNum : Int) (tTime tName : String)
    (idsForDel : List String) :
    Event.clean idsForDel true ∈ trimImages d tNum tTime tName true ↔
      Event.clean idsForDel false ∈ trimImages d tNum tTime tName false := by
  by_cases h : tNum = 0 ∧ tTime = "cyvan" ∧ tName = "cyvan"
  · rw [trimImages_default d tNum tTime tName true h,
      trimImages_default d tNum tTime tName false h]
    simp
  · rw [trimImages_filtered d tNum tTime tName true h,
      trimImages_filtered d tNum tTime tName false h]
    cases hg : groupImages (d.ImageList (tName != defaultName) tName) with
    | none => simp
    | some images =>
      cases hf : filterImages images tNum tTime (tNum != defaultNum)
          (tTime != defaultTime) with
      | none => simp [hf]
      | some ids =>
        have hno : ∀ (force b : Bool) (l : List String),
            Event.clean idsForDel b ∉ cleanImages d.ImageRemove l force := by
          intro force b l
          unfold cleanImages
          generalize ([] : List String) = acc
          induction l generalizing acc with
          | nil => simp [cleanLoop]
          | cons x xs ih =>
            simp only [cleanLoop]
            split
            · simp [ih]
            · simp [ih]
        simp [hf, hno]

theorem removeCalls_filtered (d : Daemon) (tNum : Int) (tTime tName : String)
    (isForce : Bool) (images : ImageMap) (idsForDel : List String)
    (h : ¬ (tNum = 0 ∧ tTime = "cyvan" ∧ tName = "cyvan"))
    (hg : groupImages (d.ImageList (tName != defaultName) tName) = some images)
    (hf : filterImages images tNum tTime (tNum != defaultNum) (tTime != defaultTime) =
      some idsForDel) :
    removeCalls (trimImages d tNum tTime tName isForce) =
      removeCalls (cleanImages d.ImageRemove idsForDel isForce) := by
  rw [trimImages_filtered d tNum tTime tName isForce h]
  simp only [hg, hf, removeCalls]

/-- C16, as stated, fails: two runs with the force flag set, on the same
inventory and with the count filter active in both, that differ only in `tNum`
remove different identifiers: with `tNum = 1` the calls are for id2 and id1, with
`tNum = 2` for id1 alone. -/
theorem C16_counterexample :
    removeCalls (trimImages appDaemon 1 defaultTime defaultName true) = ["id2", "id1"] ∧
    removeCalls (trimImages appDaemon 2 defaultTime defaultName true) = ["id1"] ∧
    removeCalls (trimImages appDaemon 1 defaultTime defaultName true) ≠
      removeCalls (trimImages appDaemon 2 defaultTime defaultName true) := by
  decide

/-- C16, amended: the force flag does not enter the selection.  On a fixed
inventory the list of identifiers handed to `cleanImages` is the same with and
without it, namely what `filterImages` returns for the given `tNum` and `tTime`;
without force `cli.ImageRemove` is called for every identifier of that list, with
force for the list with later duplicates removed. -/
theorem C16_force_changes_removal_only (d : Daemon) (tNum : Int) (tTime tName : String) :
    (∀ idsForDel, Event.clean idsForDel true ∈ trimImages d tNum tTime tName true ↔
      Event.clean idsForDel false ∈ trimImages d tNum tTime tName false) ∧
    (¬ (tNum = 0 ∧ tTime = "cyvan" ∧ tName = "cyvan") →
      ∀ images idsForDel,
        groupImages (d.ImageList (tName != defaultName) tName) = some images →
        filterImages images tNum tTime (tNum != defaultNum) (tTime != defaultTime) =
          some idsForDel →
        Event.clean idsForDel true ∈ trimImages d tNum tTime tName true ∧
        Event.clean idsForDel false ∈ trimImages d tNum tTime tName false ∧
        removeCalls (trimImages d tNum tTime tName false) = idsForDel ∧
        removeCalls (trimImages d tNum tTime tName true) = dedupFirst idsForDel) := by
  refine ⟨fun ids => force_keeps_selection d tNum tTime tName ids, ?_⟩
  intro h images ids hg hf
  refine ⟨?_, ?_, ?_, ?_⟩
  · rw [trimImages_filtered d tNum tTime tName true h]
    simp [hg, hf]
  · rw [trimImages_filtered d tNum tTime tName false h]
    simp [hg, hf]
  · rw [removeCalls_filtered d tNum tTime tName false images ids h hg hf]
    exact removeCalls_plain _ _ _
  · rw [removeCalls_filtered d tNum tTime tName true images ids h hg hf]
    unfold cleanImages
    rw [removeCalls_force, newIds_nil]

theorem C16_force_changes_removal_only_witness :
    removeCalls (trimImages appDaemon 1 defaultTime defaultName false) = ["id2", "id1"] ∧
    removeCalls (trimImages appDaemon 1 defaultTime defaultName true) =
      dedupFirst ["id2", "id1"] :=
  ⟨((C16_force_changes_removal_only appDaemon 1 defaultTime defaultName).2 (by decide)
      [("app", [⟨"sha256:id1", "2024-01"⟩, ⟨"sha256:id2", "2024-06"⟩,
        ⟨"sha256:id3", "latest"⟩])] ["id2", "id1"] (by decide) (by decide)).2.2.1,
   ((C16_force_changes_removal_only appDaemon 1 defaultTime defaultName).2 (by decide)
      [("app", [⟨"sha256:id1", "2024-01"⟩, ⟨"sha256:id2", "2024-06"⟩,
        ⟨"sha256:id3", "latest"⟩])] ["id2", "id1"] (by decide) (by decide)).2.2.2⟩

/-! ## The closed form -/

theorem belowIdx_cons_pos (tTime : String) (di : dockerImage) (rest : List dockerImage)
    (h : strLt di.Tag tTime = true) : belowIdx tTime true (di :: rest) = 0 := by
  simp [belowIdx, List.findIdx_cons, h]

theorem belowIdx_cons_neg (tTime : String) (t : Bool) (di : dockerImage)
    (rest : List dockerImage) (h : (t && strLt di.Tag tTime) = false) :
    belowIdx tTime t (di :: rest) = belowIdx tTime t rest + 1 := by
  cases t with
  | false => simp [belowIdx]
  | true =>
    simp only [Bool.true_and] at h
    simp [belowIdx, List.findIdx_cons, h]

theorem belowIdx_le_length (tTime : String) (t : Bool) (l : List dockerImage) :
    belowIdx tTime t l ≤ l.length := by
  unfold belowIdx
  split
  · exact List.findIdx_le_length _
  · exact Nat.le_refl _

theorem selFrom_drop_active (tNum : Int) (tTime : String) (n t : Bool) (vLen : Int) (b : Nat)
    (hb : ∀ i : Nat, (n && decide (vLen > tNum) && decide ((i : Int) = wrapInt64 (tNum - 1)))
      = true ↔ i = b)
    (l : List dockerImage) (idx : Nat) (hidx : idx ≤ b) :
    selFrom tNum tTime n t vLen idx l = l.drop (min (belowIdx tTime t l) (b - idx + 1)) := by
  induction l generalizing idx with
  | nil => simp [selFrom]
  | cons di rest ih =>
    simp only [selFrom]
    cases hc : (t && strLt di.Tag tTime) with
    | true =>
      have ht : t = true := by cases t <;> simp_all
      subst ht
      simp only [Bool.true_and] at hc
      simp [belowIdx_cons_pos tTime di rest hc]
    | false =>
      simp only [Bool.false_eq_true, if_false, belowIdx_cons_neg tTime t di rest hc]
      by_cases hi : idx = b
      · have hcnt := (hb idx).2 hi
        simp only [hcnt, if_true]
        have e : min (belowIdx tTime t rest + 1) (b - idx + 1) = 0 + 1 := by omega
        rw [e, List.drop_succ_cons, List.drop_zero]
      · have hcnt : (n && decide (vLen > tNum) && decide ((idx : Int) = wrapInt64 (tNum - 1)))
            = false := by
          cases hq : (n && decide (vLen > tNum)
              && decide ((idx : Int) = wrapInt64 (tNum - 1))) with
          | false => rfl
          | true => exact absurd ((hb idx).1 hq) hi
        simp only [hcnt, Bool.false_eq_true, if_false]
        rw [ih (idx + 1) (by omega)]
        have e : min (belowIdx tTime t rest + 1) (b - idx + 1)
            = min (belowIdx tTime t rest) (b - (idx + 1) + 1) + 1 := by omega
        rw [e, List.drop_succ_cons]

theorem selFrom_drop_idle (tNum : Int) (tTime : String) (n t : Bool) (vLen : Int)
    (l : List dockerImage) (idx : Nat)
    (hb : ∀ i : Nat, idx ≤ i → i < idx + l.length →
      (n && decide (vLen > tNum) && decide ((i : Int) = wrapInt64 (tNum - 1))) = false) :
    selFrom tNum tTime n t vLen idx l = l.drop (belowIdx tTime t l) := by
  induction l generalizing idx with
  | nil => simp [selFrom]
  | cons di rest ih =>
    simp only [selFrom]
    cases hc : (t && strLt di.Tag tTime) with
    | true =>
      have ht : t = true := by cases t <;> simp_all
      subst ht
      simp only [Bool.true_and] at hc
      simp [belowIdx_cons_pos tTime di rest hc]
    | false =>
      have hcnt := hb idx (Nat.le_refl _) (by simp)
      simp only [Bool.false_eq_true, if_false, belowIdx_cons_neg tTime t di rest hc, hcnt,
        List.drop_succ_cons]
      apply ih
      intro i h1 h2
      exact hb i (by omega) (by simp; omega)

theorem selFrom_cutIndex (s : List dockerImage) (K : Int) (tTime : String) (n t : Bool)
    (hK1 : -2 ^ 63 ≤ K) (hK2 : K < 2 ^ 63) (hlen : (s.length : Int) < 2 ^ 63) :
    (if (t || n) = true then selFrom K tTime n t (s.length : Int) 0 s else s) =
      s.drop (cutIndex s K tTime n t) := by
  unfold cutIndex
  by_cases hoff : (t || n) = false
  · have hn : n = false := by cases n <;> cases t <;> simp_all
    have ht : t = false := by cases n <;> cases t <;> simp_all
    subst hn
    subst ht
    simp
  · have hon : (t || n) = true := by cases n <;> cases t <;> simp_all
    have hoff2 : (!n && !t) = false := by cases n <;> cases t <;> simp_all
    simp only [hon, if_true, hoff2, Bool.false_eq_true, if_false]
    have hp : (if t = true then s.findIdx (fun di => strLt di.Tag tTime)
        else s.length) = belowIdx tTime t s := rfl
    rw [hp]
    by_cases hact : n = true ∧ 1 ≤ K ∧ K < (s.length : Int)
    · obtain ⟨hn, h1, h2⟩ := hact
      subst hn
      have hw : wrapInt64 (K - 1) = K - 1 := wrapInt64_of_range (by omega) (by omega)
      have hq : (true && decide (1 ≤ K) && decide (K < (s.length : Int))) = true := by
        simp [h1, h2]
      simp only [hq, if_true]
      have hA := selFrom_drop_active K tTime true t (s.length : Int)
        (K.toNat - 1) (fun i => by
          simp only [Bool.true_and, hw, Bool.and_eq_true, decide_eq_true_eq]
          constructor
          · rintro ⟨_, e⟩
            omega
          · intro e
            exact ⟨by omega, by omega⟩) s 0 (Nat.zero_le _)
      rw [hA]
      have e : K.toNat - 1 - 0 + 1 = K.toNat := by omega
      rw [e]
    · have hq : (n && decide (1 ≤ K) && decide (K < (s.length : Int))) = false := by
        cases n with
        | false => rfl
        | true =>
          simp only [Bool.true_and, Bool.and_eq_false_iff, decide_eq_false_iff_not]
          by_contra hc
          apply hact
          refine ⟨rfl, ?_, ?_⟩ <;> omega
      simp only [hq, Bool.false_eq_true, if_false]
      have hB := selFrom_drop_idle K tTime n t (s.length : Int) s 0
        (fun i _ hi => by
          cases n with
          | false => rfl
          | true =>
            simp only [Bool.true_and, Bool.and_eq_false_iff, decide_eq_false_iff_not]
            by_cases hpos : K ≤ 0
            · right
              rcases wrapInt64_pred_nonpos hK1 hpos with hw | hw
              · omega
              · rw [hw]
                norm_num at hlen ⊢
                omega
            · left
              intro hgt
              apply hact
              exact ⟨rfl, by omega, by omega⟩)
      rw [hB, Nat.min_eq_left (belowIdx_le_length _ _ _)]

theorem cutIndex_count_nonpos (s : List dockerImage) (K : Int) (tTime : String)
    (h : K ≤ 0) : cutIndex s K tTime true false = s.length := by
  unfold cutIndex
  have hq : decide (1 ≤ K) = false := by simp; omega
  simp [hq]

/-- C17: for the sequence `s` that `sort.Sort` left of a group (whatever order it
left entries with equal tags in), the walk of `filterImages` appends the core
identifiers of `s[c], ..., s[n-1]` in order, where `c = 0` with both filters off
and otherwise `c = min p q`, `p` the least position whose tag is below the
threshold when the time filter is on (else `n`) and `q = K` when the count filter
is on with `1 ≤ K < n` (else `n`); a count filter with `K ≤ 0` alone selects
nothing.  For a group with pairwise distinct tags this is the result of
`filterImages` on the group. -/
theorem C17_selection_is_a_suffix (K : Int) (tTime : String)
    (isTrimByNum isTrimByTime : Bool) (hK1 : -2 ^ 63 ≤ K) (hK2 : K < 2 ^ 63) :
    (∀ (s : List dockerImage) (idsForDel : List String),
      (s.length : Int) < 2 ^ 63 → (∀ di ∈ s, HasSep di.ID) →
      filterLoop K tTime isTrimByNum isTrimByTime (s.length : Int) 0 s idsForDel
          (isTrimByTime || isTrimByNum) =
        some (idsForDel ++
          (s.drop (cutIndex s K tTime isTrimByNum isTrimByTime)).map coreId)) ∧
    (K ≤ 0 → ∀ (s : List dockerImage) (idsForDel : List String),
      (s.length : Int) < 2 ^ 63 → (∀ di ∈ s, HasSep di.ID) →
      filterLoop K tTime true false (s.length : Int) 0 s idsForDel true = some idsForDel) ∧
    (∀ (r : String) (v : dockerImages), (v.length : Int) < 2 ^ 63 → IdsOk [(r, v)] →
      DistinctTags v →
      filterImages [(r, v)] K tTime isTrimByNum isTrimByTime =
        some (((sortSort v).drop
          (cutIndex (sortSort v) K tTime isTrimByNum isTrimByTime)).map coreId)) ∧
    (K ≤ 0 → ∀ (r : String) (v : dockerImages), (v.length : Int) < 2 ^ 63 →
      IdsOk [(r, v)] → filterImages [(r, v)] K tTime true false = some []) := by
  have walk : ∀ (n t : Bool) (s : List dockerImage) (ids : List String),
      (s.length : Int) < 2 ^ 63 → (∀ di ∈ s, HasSep di.ID) →
      filterLoop K tTime n t (s.length : Int) 0 s ids (t || n) =
        some (ids ++ (s.drop (cutIndex s K tTime n t)).map coreId) := by
    intro n t s ids hlen hs
    rw [filterLoop_ok _ _ _ _ _ _ _ _ _ hs, selFrom_cutIndex s K tTime n t hK1 hK2 hlen]
  have group : ∀ (n t : Bool) (r : String) (v : dockerImages), (v.length : Int) < 2 ^ 63 →
      IdsOk [(r, v)] →
      filterImages [(r, v)] K tTime n t =
        some (((sortSort v).drop (cutIndex (sortSort v) K tTime n t)).map coreId) := by
    intro n t r v hlen hids
    have hs : ∀ di ∈ sortSort v, HasSep di.ID := fun di hdi =>
      hids (r, v) (List.mem_cons_self _ _) di (mem_sortSort.1 hdi)
    have hl : ((sortSort v).length : Int) < 2 ^ 63 := by rw [length_sortSort]; exact hlen
    have h := walk n t (sortSort v) [] hl hs
    simp only [filterImages, filterGroups, h, List.nil_append]
  refine ⟨walk isTrimByNum isTrimByTime, ?_, ?_, ?_⟩
  · intro hpos s ids hlen hs
    have h := walk true false s ids hlen hs
    rw [cutIndex_count_nonpos s K tTime hpos] at h
    simpa using h
  · intro r v hlen hids _
    exact group isTrimByNum isTrimByTime r v hlen hids
  · intro hpos r v hlen hids
    rw [group true false r v hlen hids, cutIndex_count_nonpos _ K tTime hpos]
    simp

theorem C17_selection_is_a_suffix_witness :
    cutIndex [id3, id2, id1] 2 "2024-03" true true = 2 ∧
    filterLoop 2 "2024-03" true true 3 0 [id3, id2, id1] [] true = some ["id1"] ∧
    filterImages appMap 2 "2024-03" true true = some ["id1"] :=
  ⟨by decide,
   ((C17_selection_is_a_suffix 2 "2024-03" true true (by norm_num) (by norm_num)).1
      [id3, id2, id1] [] (by norm_num) (by decide)).trans (by decide),
   ((C17_selection_is_a_suffix 2 "2024-03" true true (by norm_num) (by norm_num)).2.2.1
      "app" appGroup (by norm_num [appGroup]) (by decide) (by decide)).trans (by decide)⟩

/-! ## Segments -/

theorem splitChars_second_eq (sep : Char) (l : List Char) (h : sep ∈ l) :
    (splitChars sep l)[1]? =
      some (((l.dropWhile (fun c => c != sep)).drop 1).takeWhile (fun c => c != sep)) := by
  induction l with
  | nil => simp at h
  | cons c cs ih =>
    simp only [splitChars]
    by_cases hc : c = sep
    · subst hc
      simp [List.dropWhile, splitChars_first]
    · have hne : (c != sep) = true := by simp [hc]
      have hcs : sep ∈ cs := by
        rcases List.mem_cons.1 h with e | e
        · exact absurd e.symm hc
        · exact e
      simp only [hc, if_false, List.dropWhile, hne]
      cases hs : splitChars sep cs with
      | nil => exact absurd hs (splitChars_ne_nil _ _)
      | cons w ws =>
        have := ih hcs
        rw [hs] at this
        simpa using this

theorem tagOf_eq_secondSegment (s : String) (h : HasSep s) : tagOf s = secondSegment s := by
  unfold tagOf secondSegment stringsSplit
  rw [List.getElem?_map, splitChars_second_eq tagSplit s.data h]
  rfl

theorem coreId_eq_secondSegment (di : dockerImage) (h : HasSep di.ID) :
    coreId di = secondSegment di.ID := by
  unfold coreId secondSegment stringsSplit
  rw [List.getElem?_map, splitChars_second_eq idSplit di.ID.data h]
  rfl

theorem split_at_first (sep : Char) (l : List Char) (h : sep ∈ l) :
    l = l.takeWhile (fun c => c != sep) ++
      sep :: (l.dropWhile (fun c => c != sep)).drop 1 := by
  induction l with
  | nil => simp at h
  | cons c cs ih =>
    by_cases hc : c = sep
    · subst hc
      simp [List.takeWhile, List.dropWhile]
    · have hne : (c != sep) = true := by simp [hc]
      have hcs : sep ∈ cs := by
        rcases List.mem_cons.1 h with e | e
        · exact absurd e.symm hc
        · exact e
      simp only [List.takeWhile, List.dropWhile, hne, List.cons_append]
      rw [← ih hcs]

theorem count_takeWhile_ne (sep : Char) (l : List Char) :
    (l.takeWhile (fun c => c != sep)).count sep = 0 := by
  rw [List.count_eq_zero]
  intro hm
  have := List.mem_takeWhile_imp hm
  simp at this

theorem roundTrip_iff (s : String) (h : HasSep s) :
    repoOf s ++ ":" ++ secondSegment s = s ↔ s.data.count ':' = 1 := by
  have hsplit := split_at_first ':' s.data h
  have hcount : s.data.count ':' =
      1 + ((s.data.dropWhile (fun c => c != ':')).drop 1).count ':' := by
    conv_lhs => rw [hsplit]
    rw [List.count_append, count_takeWhile_ne, List.count_cons]
    simp
    omega
  rw [String.ext_iff, String.data_append, String.data_append]
  have hd : (":" : String).data = [':'] := rfl
  simp only [repoOf, secondSegment, tagSplit, hd]
  constructor
  · intro e
    have e2 := e.trans hsplit
    rw [List.append_assoc, List.singleton_append] at e2
    have e3 := List.append_cancel_left e2
    simp only [List.cons.injEq, true_and] at e3
    rw [List.takeWhile_eq_self_iff] at e3
    have hz : ((s.data.dropWhile (fun c => c != ':')).drop 1).count ':' = 0 := by
      rw [List.count_eq_zero]
      intro hm
      have := e3 _ hm
      simp at this
    omega
  · intro e
    have hz : ((s.data.dropWhile (fun c => c != ':')).drop 1).count ':' = 0 := by omega
    rw [List.count_eq_zero] at hz
    have e3 : ((s.data.dropWhile (fun c => c != ':')).drop 1).takeWhile (fun c => c != ':')
        = (s.data.dropWhile (fun c => c != ':')).drop 1 := by
      rw [List.takeWhile_eq_self_iff]
      intro x hx
      have : x ≠ ':' := fun e => hz (e ▸ hx)
      simp [this]
    rw [e3]
    conv_rhs => rw [hsplit]
    simp

/-- C18: for a reference with a separator, `groupImages` files the entry under
the text before the first separator and gives it as tag the text between the
first and the second separator (or the end); repository, ":" and tag give the
reference back exactly when it has one separator. -/
theorem C18_split_uses_two_segments (m : ImageMap) (imageID repoTag : String)
    (h : HasSep repoTag) :
    (stringsSplit repoTag tagSplit)[0]? =
      some (String.mk (repoTag.data.takeWhile (fun c => c != ':'))) ∧
    (stringsSplit repoTag tagSplit)[1]? = some (secondSegment repoTag) ∧
    addRepoTag m imageID repoTag =
      some (mapSet (mapEnsure m (repoOf repoTag)) (repoOf repoTag)
        (mapGet (mapEnsure m (repoOf repoTag)) (repoOf repoTag) ++
          [⟨imageID, secondSegment repoTag⟩])) ∧
    (∃ m2, addRepoTag m imageID repoTag = some m2 ∧
      mapGet m2 (repoOf repoTag) =
        mapGet m (repoOf repoTag) ++ [⟨imageID, secondSegment repoTag⟩]) ∧
    (repoOf repoTag ++ ":" ++ secondSegment repoTag = repoTag ↔
      repoTag.data.count ':' = 1) := by
  have h1 : (stringsSplit repoTag tagSplit)[1]? = some (secondSegment repoTag) := by
    unfold stringsSplit secondSegment
    rw [List.getElem?_map, splitChars_second_eq tagSplit repoTag.data h]
    rfl
  have h2 := addRepoTag_ok m imageID repoTag h
  rw [tagOf_eq_secondSegment repoTag h] at h2
  refine ⟨stringsSplit_first repoTag, h1, h2, ⟨_, h2, ?_⟩, roundTrip_iff repoTag h⟩
  rw [mapGet_mapSet, mapGet_mapEnsure]
  simp

theorem C18_split_uses_two_segments_witness :
    groupImages registryInventory =
      some [("localhost", [⟨"sha256:x", "5000/app"⟩, ⟨"sha256:y", "5000/db"⟩])] ∧
    repoOf "localhost:5000/app:v1" ++ ":" ++ secondSegment "localhost:5000/app:v1" ≠
      "localhost:5000/app:v1" ∧
    (stringsSplit "localhost:5000/app:v1" tagSplit)[1]? =
      some (secondSegment "localhost:5000/app:v1") :=
  ⟨by decide, by decide,
    (C18_split_uses_two_segments [] "sha256:x" "localhost:5000/app:v1" (by decide)).2.1⟩

/-! ## Identifiers without a separator -/

/-- C19: `filterImages` fails exactly when some entry of some group has an
identifier without a separator, whatever the filter setting and whether or not
the entry would be selected; when it returns, every identifier of the result is
the segment between the first and the second separator of an entry's ID. -/
theorem C19_id_split_precedes_decision (images : ImageMap) (tNum : Int) (tTime : String)
    (isTrimByNum isTrimByTime : Bool) :
    (filterImages images tNum tTime isTrimByNum isTrimByTime = none ↔
      ∃ g ∈ images, ∃ di ∈ g.2, ¬ HasSep di.ID) ∧
    (∀ res, filterImages images tNum tTime isTrimByNum isTrimByTime = some res →
      ∀ x ∈ res, ∃ g ∈ images, ∃ di ∈ g.2, HasSep di.ID ∧ x = secondSegment di.ID) := by
  have hbad : (¬ IdsOk images) ↔ ∃ g ∈ images, ∃ di ∈ g.2, ¬ HasSep di.ID := by
    unfold IdsOk
    constructor
    · intro h
      by_contra hc
      apply h
      intro g hg di hdi
      by_contra hn
      exact hc ⟨g, hg, di, hdi, hn⟩
    · rintro ⟨g, hg, di, hdi, hn⟩ h
      exact hn (h g hg di hdi)
  by_cases hids : IdsOk images
  · rw [filterImages_ok _ _ _ _ _ hids]
    constructor
    · rw [← hbad]
      simp [hids]
    · intro res e x hx
      simp only [Option.some.injEq] at e
      rw [← e, List.mem_flatMap] at hx
      obtain ⟨g, hg, hx2⟩ := hx
      obtain ⟨di, hdi, e2⟩ := List.mem_map.1 hx2
      have hdv : di ∈ g.2 :=
        mem_sortSort.1 ((selectedOf_sublist _ _ _ _ g.2).subset hdi)
      have hsep := hids g hg di hdv
      exact ⟨g, hg, di, hdv, hsep, by rw [← e2, coreId_eq_secondSegment di hsep]⟩
  · rw [filterImages_fail _ _ _ _ _ hids]
    constructor
    · rw [← hbad]
      simp [hids]
    · intro res e
      simp at e

theorem C19_id_split_precedes_decision_witness :
    filterImages [("app", [⟨"abc", "v1"⟩])] 5 defaultTime true false = none ∧
    filterImages [("app", [⟨"sha256:abc", "v1"⟩])] 5 defaultTime true false = some [] :=
  ⟨(C19_id_split_precedes_decision [("app", [⟨"abc", "v1"⟩])] 5 defaultTime true false).1.2
      ⟨("app", [⟨"abc", "v1"⟩]), by decide, ⟨"abc", "v1"⟩, by decide, by decide⟩,
    by decide⟩

/-! ## The comparison -/

/-- C20: `Less` is transitive, its negation is transitive, of two entries with
different tags exactly one is `Less` than the other, and an entry is `Less` than
itself exactly when its tag is "latest". -/
theorem C20_less_is_transitive (a b c : dockerImage) :
    (dockerImages.Less a b = true → dockerImages.Less b c = true →
      dockerImages.Less a c = true) ∧
    (dockerImages.Less a b = false → dockerImages.Less b c = false →
      dockerImages.Less a c = false) ∧
    (a.Tag ≠ b.Tag →
      (dockerImages.Less a b = true ∧ dockerImages.Less b a = false) ∨
      (dockerImages.Less a b = false ∧ dockerImages.Less b a = true)) ∧
    (dockerImages.Less a a = true ↔ a.Tag = "latest") := by
  refine ⟨?_, ?_, ?_, ?_⟩
  · intro h1 h2
    unfold dockerImages.Less at h1 h2 ⊢
    by_cases ha : a.Tag = "latest"
    · simp [ha]
    · by_cases hb : b.Tag = "latest"
      · simp [ha, hb] at h1
      · by_cases hc : c.Tag = "latest"
        · simp [hb, hc] at h2
        · simp only [ha, hb, hc, if_false] at h1 h2 ⊢
          exact strLt_trans h2 h1
  · intro h1 h2
    unfold dockerImages.Less at h1 h2 ⊢
    by_cases ha : a.Tag = "latest"
    · simp [ha] at h1
    · by_cases hb : b.Tag = "latest"
      · simp [hb] at h2
      · by_cases hc : c.Tag = "latest"
        · simp [ha, hc]
        · simp only [ha, hb, hc, if_false] at h1 h2 ⊢
          cases hca : strLt c.Tag a.Tag with
          | false => rfl
          | true =>
            exfalso
            by_cases hab : a.Tag = b.Tag
            · rw [hab] at hca
              rw [hca] at h2
              exact absurd h2 (by simp)
            · rcases strLt_total hab with h | h
              · have := strLt_trans hca h
                rw [this] at h2
                exact absurd h2 (by simp)
              · rw [h] at h1
                exact absurd h1 (by simp)
  · intro hne
    unfold dockerImages.Less
    by_cases ha : a.Tag = "latest"
    · have hb : b.Tag ≠ "latest" := fun e => hne (ha.trans e.symm)
      simp [ha, hb]
    · by_cases hb : b.Tag = "latest"
      · simp [ha, hb]
      · simp only [ha, hb, if_false]
        rcases strLt_total hne with h | h
        · exact Or.inr ⟨strLt_asymm h, h⟩
        · exact Or.inl ⟨h, strLt_asymm h⟩
  · unfold dockerImages.Less
    by_cases ha : a.Tag = "latest"
    · simp [ha]
    · simp [ha, strLt_irrefl]

theorem C20_less_is_transitive_witness :
    dockerImages.Less id3 id2 = true ∧ dockerImages.Less id2 id1 = true ∧
    dockerImages.Less id3 id1 = true ∧ dockerImages.Less id3 id3 = true :=
  ⟨by decide, by decide,
    (C20_less_is_transitive id3 id2 id1).1 (by decide) (by decide), by decide⟩

end Icleaner
